import Mathlib

/-!
Verification of the `clean-code` artifact-cleaning tool.

This file shallowly embeds the core data model and algorithms of the Rust
sources (`src/scan.rs`, `src/git.rs`, `src/report.rs`, `src/clean.rs`,
`src/tui.rs`) and proves the specification claims about them.

Modelling conventions:
- `u64` values are `Nat` with explicit saturation (`satAdd`) or wrap-around
  (`wrapAdd`) where the source uses `saturating_add` or plain `+`/`sum`.
- `SystemTime` is a `Nat` (seconds); `Duration::as_secs` division is explicit.
- A filesystem path (`PathBuf`) is its list of components, `List String`.
  Rust compares paths component-wise; components are compared by their
  character data so that the order is kernel-computable.
- Filesystem and subprocess effects (`git check-ignore`, `git log`,
  `fs::remove_dir_all`, metadata reads) are oracles passed in as explicit
  environment records; the executor additionally returns a trace of the
  removal attempts it made and the progress snapshots it emitted.
- Rust's stable `sort_by` is modelled by `List.insertionSort` (stable) on
  the decidable relation `comparator ≠ .gt`.
-/

/-- Largest `u64` value. -/
def U64MAX : Nat := 18446744073709551615

/-- `u64::saturating_add`. -/
def satAdd (a b : Nat) : Nat := min (a + b) U64MAX

/-- Wrapping `u64` addition (release-mode `+`). -/
def wrapAdd (a b : Nat) : Nat := (a + b) % (U64MAX + 1)

/-- `iter().map(..).sum::<u64>()` over a list of `u64` values. -/
def u64sum (l : List Nat) : Nat := l.foldl wrapAdd 0

/-- `Option::max` for `Option<SystemTime>` (with `None` least). -/
def optMax (a b : Option Nat) : Option Nat :=
  match a, b with
  | none, b => b
  | some x, none => some x
  | some x, some y => some (max x y)

/-- A path, as its list of components. -/
abbrev FsPath := List String

/-- Kernel-computable key of a path component. -/
def strKey (s : String) : List Char := s.data

/-- Kernel-computable key of a path. -/
def pathKey (p : FsPath) : List (List Char) := p.map strKey

/-- `Ord::cmp` on two paths (component-wise lexicographic, as for Rust
`Path`). -/
def cmpPath (a b : FsPath) : Ordering :=
  if a = b then .eq else if pathKey a < pathKey b then .lt else .gt

/-- `Ord::cmp` on `u64`. -/
def cmpNat (a b : Nat) : Ordering :=
  if a = b then .eq else if a < b then .lt else .gt

/-- `Ord::cmp` on `i64`. -/
def cmpInt (a b : Int) : Ordering :=
  if a = b then .eq else if a < b then .lt else .gt

/-- `DirStats` from `src/scan.rs`: subtree byte total and newest
modification time. -/
structure DirStats where
  size_bytes : Nat
  newest_mtime : Option Nat
deriving DecidableEq, Repr

/-- `DirStats::default()`. -/
def DirStats.empty : DirStats := ⟨0, none⟩

/-- `DirStats::merge_mtime` from `src/scan.rs`. -/
def DirStats.merge_mtime (self : DirStats) (other : Option Nat) : DirStats :=
  match other with
  | none => self
  | some other =>
    { self with
      newest_mtime :=
        match self.newest_mtime with
        | some existing => if other ≤ existing then some existing else some other
        | none => some other }

/-- `DirStats::merge` from `src/scan.rs`: saturating size sum, then mtime
max. -/
def DirStats.merge (self other : DirStats) : DirStats :=
  ({ self with size_bytes := satAdd self.size_bytes other.size_bytes
   } : DirStats).merge_mtime other.newest_mtime

/-- Aggregation of a whole collection of per-entry stats into one
accumulator, as the scanner's shared accumulator does (starting from
`DirStats::default()` and merging each contribution in). -/
def DirStats.mergeAll (l : List DirStats) : DirStats :=
  l.foldl DirStats.merge DirStats.empty

/-- `GitHead` from `src/git.rs`. -/
structure GitHead where
  hash : String
  unix_seconds : Int
  iso8601 : String
deriving DecidableEq, Repr

/-- External-effect oracle for `src/git.rs`: the result of spawning
`git check-ignore` on a repository root and a root-relative path.
`Except.error` is a spawn failure, `none` is death by signal, `some c` is
exit code `c`. -/
structure GitEnv where
  check_ignore : FsPath → FsPath → Except String (Option Int)

/-- `Path::strip_prefix` for our component-list paths. -/
def stripRoot (root p : FsPath) : Option FsPath :=
  if root.isPrefixOf p then some (p.drop root.length) else none

/-- `is_git_ignored` from `src/git.rs`: fails when `path` is not lexically
under `repo_root`, otherwise maps the `git check-ignore` exit status. -/
def is_git_ignored (env : GitEnv) (repo_root path : FsPath) : Except String Bool :=
  match stripRoot repo_root path with
  | none => .error "path is not under repo root"
  | some rel =>
    match env.check_ignore repo_root rel with
    | .error e => .error e
    | .ok (some 0) => .ok true
    | .ok (some 1) => .ok false
    | .ok (some _) => .error "git check-ignore failed with exit code"
    | .ok none => .error "git check-ignore terminated by signal"

/-- `ArtifactRecord` from `src/report.rs`. -/
structure ArtifactRecord where
  repo_root : FsPath
  path : FsPath
  stats : DirStats
deriving DecidableEq, Repr

/-- `RepoReport` from `src/report.rs`. -/
structure RepoReport where
  repo_root : FsPath
  head : Option GitHead
  artifacts : List ArtifactRecord
  total_size_bytes : Nat
  newest_mtime : Option Nat
deriving DecidableEq, Repr

/-- External-effect oracle for `src/report.rs`: repository-root discovery
(`find_git_root`, a filesystem walk), the ignore-status query, the subtree
aggregation (`dir_stats`, a filesystem traversal) and the `git_head`
lookup. -/
structure ReportEnv where
  find_git_root : FsPath → Option FsPath
  is_ignored : FsPath → FsPath → Except String Bool
  dir_stats : FsPath → Except String DirStats
  git_head : FsPath → Except String (Option GitHead)

/-- `process_candidate` from `src/report.rs`: resolve the owning repository
root, keep the candidate only when `is_git_ignored` confirms it, then
aggregate its stats. Any failure or a non-ignored verdict discards the
candidate. -/
def process_candidate (env : ReportEnv) (path : FsPath) : Option ArtifactRecord :=
  match env.find_git_root path with
  | none => none
  | some repo_root =>
    match env.is_ignored repo_root path with
    | .error _ => none
    | .ok false => none
    | .ok true =>
      match env.dir_stats path with
      | .error _ => none
      | .ok stats => some ⟨repo_root, path, stats⟩

/-- Append a record to its repository's group, keeping first-seen key
order (models the `HashMap::entry(..).or_default().push(..)` grouping;
the batch output is fully sorted afterwards, so map iteration order is
irrelevant to the result). -/
def insertRecord (root : FsPath) (rec : ArtifactRecord) :
    List (FsPath × List ArtifactRecord) → List (FsPath × List ArtifactRecord)
  | [] => [(root, [rec])]
  | (r, recs) :: rest =>
    if r = root then (r, recs ++ [rec]) :: rest
    else (r, recs) :: insertRecord root rec rest

/-- Group confirmed records by `repo_root`. -/
def groupByRoot (records : List ArtifactRecord) : List (FsPath × List ArtifactRecord) :=
  records.foldl (fun acc rec => insertRecord rec.repo_root rec acc) []

/-- The artifact comparator of `src/report.rs` / `src/tui.rs`: descending
size, tie-broken by ascending path. -/
def cmpArtifact (a b : ArtifactRecord) : Ordering :=
  (cmpNat b.stats.size_bytes a.stats.size_bytes).then (cmpPath a.path b.path)

/-- Stable sort (`sort_by`) with the artifact comparator. -/
def sortArtifacts (l : List ArtifactRecord) : List ArtifactRecord :=
  l.insertionSort (fun a b => cmpArtifact a b ≠ .gt)

/-- Maximum artifact mtime (`artifacts.iter().filter_map(|a| mtime).max()`),
as a fold of `Option::max`. -/
def mtimeMax (l : List ArtifactRecord) : Option Nat :=
  l.foldl (fun acc a => optMax acc a.stats.newest_mtime) none

/-- `i64::MAX`, the sort key used for repositories without commits. -/
def I64MAX : Int := 9223372036854775807

/-- The report comparator of `src/report.rs`: head commit timestamp
ascending (missing head sorts last via `i64::MAX`), then root path. -/
def cmpReport (a b : RepoReport) : Ordering :=
  (cmpInt ((a.head.map GitHead.unix_seconds).getD I64MAX)
          ((b.head.map GitHead.unix_seconds).getD I64MAX)).then
    (cmpPath a.repo_root b.repo_root)

/-- `collect_reports` from `src/report.rs`, with the candidate list already
produced by `scan_artifact_dirs` (a filesystem traversal) given as input:
confirm candidates, group them by repository, sort each group's artifacts,
derive the totals, attach the head lookup (errors degrade to `none`), and
sort the reports. -/
def collect_reports (env : ReportEnv) (candidates : List FsPath) : List RepoReport :=
  let records := candidates.filterMap (process_candidate env)
  let reports := (groupByRoot records).map (fun g =>
    let artifacts := sortArtifacts g.2
    let total_size_bytes := u64sum (artifacts.map (fun a => a.stats.size_bytes))
    let newest_mtime := mtimeMax artifacts
    let head :=
      match env.git_head g.1 with
      | .ok head => head
      | .error _ => none
    ({ repo_root := g.1, head, artifacts, total_size_bytes, newest_mtime } : RepoReport))
  reports.insertionSort (fun a b => cmpReport a b ≠ .gt)

/-- `DeleteTarget` from `src/clean.rs`. -/
structure DeleteTarget where
  repo_root : FsPath
  path : FsPath
  planned_bytes : Nat
deriving DecidableEq, Repr

/-- `DeleteProgress` from `src/clean.rs`. -/
structure DeleteProgress where
  processed : Nat
  total : Nat
  deleted_paths : Nat
  deleted_bytes : Nat
  skipped_paths : Nat
  error_count : Nat
deriving DecidableEq, Repr

/-- Drop later targets of a path-equal run (`Vec::dedup_by` keeps the first
of each run of consecutive elements with equal paths). -/
def dedupAux (prev : DeleteTarget) : List DeleteTarget → List DeleteTarget
  | [] => []
  | b :: l => if b.path = prev.path then dedupAux prev l else b :: dedupAux b l

/-- `targets.dedup_by(|a, b| a.path == b.path)`. -/
def dedupByPath : List DeleteTarget → List DeleteTarget
  | [] => []
  | a :: l => a :: dedupAux a l

/-- The flattening loop of `plan_delete_targets`: one target per artifact
of every selected report, in input order. -/
def flattenTargets (reports : List (RepoReport × Bool)) : List DeleteTarget :=
  reports.flatMap (fun p =>
    if p.2 then
      p.1.artifacts.map (fun a =>
        ({ repo_root := p.1.repo_root, path := a.path,
           planned_bytes := a.stats.size_bytes } : DeleteTarget))
    else [])

/-- `plan_delete_targets` from `src/clean.rs`: flatten the selected
reports, stable-sort by path, dedup consecutive path-equal targets. -/
def plan_delete_targets (reports : List (RepoReport × Bool)) : List DeleteTarget :=
  dedupByPath ((flattenTargets reports).insertionSort
    (fun a b => cmpPath a.path b.path ≠ .gt))

/-- `is_blocked_path` from `src/clean.rs`: the final component is the
version-control metadata directory `.git`. -/
def is_blocked_path (path : FsPath) : Bool :=
  path.getLast? == some ".git"

/-- Result of one `fs::remove_dir_all` call, as an oracle value. -/
inductive RemoveResult where
  | ok
  | notFound
  | failed (e : String)
deriving DecidableEq, Repr

/-- Environment of `execute_delete_with_progress`: the dry-run flag, the
cancellation signal as read at each loop iteration, the `is_git_ignored`
verdict for a target, and the `fs::remove_dir_all` outcome for a target. -/
structure ExecEnv where
  dry_run : Bool
  cancel : Nat → Bool
  ignore : DeleteTarget → Except String Bool
  remove : DeleteTarget → RemoveResult

/-- Mutable state of the deletion loop, extended with the trace of emitted
progress snapshots and of the paths actually handed to
`fs::remove_dir_all`. -/
structure ExecState where
  deleted_paths : Nat
  deleted_bytes : Nat
  skipped_paths : Nat
  errors : List (FsPath × String)
  events : List DeleteProgress
  attempts : List FsPath
deriving DecidableEq, Repr

/-- `on_progress(DeleteProgress { .. })`: append the current snapshot. -/
def emitProgress (st : ExecState) (processed total : Nat) : ExecState :=
  { st with
    events := st.events ++
      [{ processed, total, deleted_paths := st.deleted_paths,
         deleted_bytes := st.deleted_bytes, skipped_paths := st.skipped_paths,
         error_count := st.errors.length }] }

/-- One iteration of the `execute_delete_with_progress` loop from
`src/clean.rs` (the part after the cancellation check), for the target at
0-based index `idx`: `processed = idx + 1`. Every control path updates the
summary and then emits one progress snapshot. -/
def execStep (env : ExecEnv) (total idx : Nat) (t : DeleteTarget) (st : ExecState) : ExecState :=
  if is_blocked_path t.path then
    emitProgress
      { st with skipped_paths := st.skipped_paths + 1,
                errors := st.errors ++ [(t.path, "refusing to delete blocked path")] }
      (idx + 1) total
  else
    match env.ignore t with
    | .ok false =>
      emitProgress { st with skipped_paths := st.skipped_paths + 1 } (idx + 1) total
    | .error e =>
      emitProgress
        { st with skipped_paths := st.skipped_paths + 1,
                  errors := st.errors ++ [(t.path, e)] }
        (idx + 1) total
    | .ok true =>
      if env.dry_run then emitProgress st (idx + 1) total
      else
        let st1 := { st with attempts := st.attempts ++ [t.path] }
        let st2 :=
          match env.remove t with
          | .ok => { st1 with deleted_paths := st1.deleted_paths + 1,
                              deleted_bytes := satAdd st1.deleted_bytes t.planned_bytes }
          | .notFound => { st1 with skipped_paths := st1.skipped_paths + 1 }
          | .failed e => { st1 with errors := st1.errors ++ [(t.path, e)] }
        emitProgress st2 (idx + 1) total

/-- The loop of `execute_delete_with_progress` from `src/clean.rs`: per
target, first the cancellation check (`break` when set), then the
iteration body. -/
def execGo (env : ExecEnv) (total : Nat) : Nat → List DeleteTarget → ExecState → ExecState
  | _, [], st => st
  | idx, t :: rest, st =>
    if env.cancel idx then st
    else execGo env total (idx + 1) rest (execStep env total idx t st)

/-- Initial loop state. -/
def initExecState : ExecState := ⟨0, 0, 0, [], [], []⟩

/-- `execute_delete_with_progress` from `src/clean.rs`, returning the final
loop state (counts, error list, emitted snapshots, removal attempts). -/
def execute_delete_with_progress (env : ExecEnv) (targets : List DeleteTarget) : ExecState :=
  execGo env targets.length 0 targets initExecState

/-- The prefix of the plan that the loop actually processes: it stops at
the first iteration whose cancellation read is true. -/
def keptTargets (cancel : Nat → Bool) : Nat → List DeleteTarget → List DeleteTarget
  | _, [] => []
  | idx, t :: rest => if cancel idx then [] else t :: keptTargets cancel (idx + 1) rest

/-- Whether processing this target increments `skipped_paths` (blocked
path, not-ignored verdict, ignore-check error, or removal hitting an
already-absent path). -/
def skipsTarget (env : ExecEnv) (t : DeleteTarget) : Bool :=
  if is_blocked_path t.path then true
  else
    match env.ignore t with
    | .ok false => true
    | .error _ => true
    | .ok true =>
      if env.dry_run then false
      else
        match env.remove t with
        | .notFound => true
        | _ => false

/-- Whether processing this target increments `deleted_paths`. -/
def deletesTarget (env : ExecEnv) (t : DeleteTarget) : Bool :=
  if is_blocked_path t.path then false
  else
    match env.ignore t with
    | .ok true =>
      if env.dry_run then false
      else
        match env.remove t with
        | .ok => true
        | _ => false
    | _ => false

/-- The `(path, error)` pairs that processing this target appends to the
summary's error list. -/
def errsOf (env : ExecEnv) (t : DeleteTarget) : List (FsPath × String) :=
  if is_blocked_path t.path then [(t.path, "refusing to delete blocked path")]
  else
    match env.ignore t with
    | .ok false => []
    | .error e => [(t.path, e)]
    | .ok true =>
      if env.dry_run then []
      else
        match env.remove t with
        | .failed e => [(t.path, e)]
        | _ => []

/-- The removal attempts that processing this target performs. -/
def attemptsOf (env : ExecEnv) (t : DeleteTarget) : List FsPath :=
  if is_blocked_path t.path then []
  else
    match env.ignore t with
    | .ok true => if env.dry_run then [] else [t.path]
    | _ => []

/-- `TuiOptions` from `src/tui.rs`. -/
structure TuiOptions where
  min_size_bytes : Nat
  dry_run : Bool
deriving DecidableEq, Repr

/-- `SortMode` from `src/tui.rs`. -/
inductive SortMode where
  | Age
  | Size
deriving DecidableEq, Repr

/-- `SortKey` from `src/tui.rs`. -/
inductive SortKey where
  | Age (time : Option Nat)
  | Size (bytes : Nat) (time : Option Nat)
deriving DecidableEq, Repr

/-- `SelectionMode` from `src/tui.rs`. -/
inductive SelectionMode where
  | Auto
  | Manual
deriving DecidableEq, Repr

/-- `RepoItem` from `src/tui.rs`. -/
structure RepoItem where
  report : RepoReport
  head_loaded : Bool
  selected : Bool
  selection_mode : SelectionMode
  repo_display : String
deriving DecidableEq, Repr

/-- The fields of `App` from `src/tui.rs` that the selection model reads
and writes (`table_select` models `table_state.selected()`; the screen,
scan counters and render state are orthogonal to the claims and omitted;
the `HashMap` of pending heads is an association list). -/
structure App where
  now : Nat
  sort_mode : SortMode
  items : List RepoItem
  table_select : Option Nat
  pending_heads : List (FsPath × Option GitHead)
  new_repo_default_selected : Option Bool

/-- Render a path for display. -/
def renderPath (p : FsPath) : String := String.intercalate "/" p

/-- `display_rel_path` from `src/format.rs`. -/
def display_rel_path (base p : FsPath) : String :=
  match stripRoot base p with
  | some [] => "."
  | some rel => renderPath rel
  | none => renderPath p

/-- `cmp_time_key` from `src/tui.rs`. -/
def cmp_time_key (a b : Option Nat) : Ordering :=
  match a, b with
  | some a, some b => cmpNat a b
  | some _, none => .lt
  | none, some _ => .gt
  | none, none => .eq

/-- `repo_age_days` from `src/tui.rs`: `None` when there is no
`newest_mtime` or when it lies in the future
(`duration_since` fails), else the age in whole days. -/
def repo_age_days (report : RepoReport) (now : Nat) : Option Nat :=
  match report.newest_mtime with
  | none => none
  | some newest => if newest ≤ now then some ((now - newest) / 86400) else none

/-- `is_visible` from `src/tui.rs`. -/
def is_visible (report : RepoReport) (options : TuiOptions) : Bool :=
  options.min_size_bytes ≤ report.total_size_bytes && !report.artifacts.isEmpty

/-- `should_auto_select` from `src/tui.rs` (`AUTO_SELECT_DAYS = 180`). -/
def should_auto_select (report : RepoReport) (options : TuiOptions) (now : Nat) : Bool :=
  if report.total_size_bytes < options.min_size_bytes || report.artifacts.isEmpty then false
  else
    match repo_age_days report now with
    | none => false
    | some age_days => 180 ≤ age_days

/-- `App::sort_key_for_report` from `src/tui.rs`. -/
def sort_key_for_report (sort_mode : SortMode) (report : RepoReport) : SortKey :=
  match sort_mode with
  | .Age => .Age report.newest_mtime
  | .Size => .Size report.total_size_bytes report.newest_mtime

/-- The by-age item comparator of `App::sort_keep_cursor`. -/
def cmpItemAge (a b : RepoItem) : Ordering :=
  (cmp_time_key a.report.newest_mtime b.report.newest_mtime).then
    (cmpPath a.report.repo_root b.report.repo_root)

/-- The by-size item comparator of `App::sort_keep_cursor`. -/
def cmpItemSize (a b : RepoItem) : Ordering :=
  (cmpNat b.report.total_size_bytes a.report.total_size_bytes).then
    ((cmp_time_key a.report.newest_mtime b.report.newest_mtime).then
      (cmpPath a.report.repo_root b.report.repo_root))

/-- The item sort performed by `App::sort_keep_cursor` (stable, as
`sort_by`). -/
def sortItems (sort_mode : SortMode) (items : List RepoItem) : List RepoItem :=
  match sort_mode with
  | .Age => items.insertionSort (fun a b => cmpItemAge a b ≠ .gt)
  | .Size => items.insertionSort (fun a b => cmpItemSize a b ≠ .gt)

/-- The visible rows, in item order. -/
def visibleItems (app : App) (options : TuiOptions) : List RepoItem :=
  app.items.filter (fun i => is_visible i.report options)

/-- `App::visible_len` from `src/tui.rs`. -/
def App.visible_len (app : App) (options : TuiOptions) : Nat :=
  (visibleItems app options).length

/-- `App::selected_repo_root` from `src/tui.rs`: the root of the visible
row under the cursor. -/
def App.selected_repo_root (app : App) (options : TuiOptions) : Option FsPath :=
  match app.table_select with
  | none => none
  | some row => ((visibleItems app options)[row]?).map (fun i => i.report.repo_root)

/-- `App::restore_selection` from `src/tui.rs`. -/
def App.restore_selection (app : App) (options : TuiOptions)
    (repo_root : Option FsPath) : App :=
  if app.visible_len options = 0 then { app with table_select := none }
  else
    match repo_root with
    | some root =>
      match (visibleItems app options).findIdx? (fun i => i.report.repo_root == root) with
      | some row => { app with table_select := some row }
      | none => { app with table_select := some 0 }
    | none => { app with table_select := some 0 }

/-- `App::ensure_selection_valid` from `src/tui.rs`. -/
def App.ensure_selection_valid (app : App) (options : TuiOptions) : App :=
  if app.visible_len options = 0 then { app with table_select := none }
  else
    match app.table_select with
    | some idx => if idx < app.visible_len options then app else { app with table_select := some 0 }
    | none => { app with table_select := some 0 }

/-- `App::sort_keep_cursor` from `src/tui.rs`: remember the cursor's
repository, re-sort the items, put the cursor back on that repository. -/
def App.sort_keep_cursor (app : App) (options : TuiOptions) : App :=
  let current := app.selected_repo_root options
  let app2 := { app with items := sortItems app.sort_mode app.items }
  app2.restore_selection options current

/-- `HashMap::remove` on the pending-heads association list. -/
def removeHead (root : FsPath) :
    List (FsPath × Option GitHead) → Option (Option GitHead) × List (FsPath × Option GitHead)
  | [] => (none, [])
  | (r, h) :: rest =>
    if r = root then (some h, rest)
    else
      let found := removeHead root rest
      (found.1, (r, h) :: found.2)

/-- Outcome of the `iter_mut().find(..)` phase of `App::upsert_artifact`:
no item with the record's root exists, the artifact is already present
(early return), or the matching item was updated in place (carrying
whether its sort key changed). -/
inductive UpsertStep where
  | missing
  | duplicate
  | updated (items : List RepoItem) (keyChanged : Bool)

/-- The in-place update of the first item whose root matches the record
(`App::upsert_artifact`, existing-item branch). -/
def updateFirstItem (record : ArtifactRecord) (options : TuiOptions) (now : Nat)
    (sort_mode : SortMode) : List RepoItem → UpsertStep
  | [] => .missing
  | item :: rest =>
    if item.report.repo_root = record.repo_root then
      if item.report.artifacts.any (fun a => a.path == record.path) then .duplicate
      else
        let old_sort_key := sort_key_for_report sort_mode item.report
        let report :=
          { item.report with
            total_size_bytes := satAdd item.report.total_size_bytes record.stats.size_bytes,
            newest_mtime := optMax item.report.newest_mtime record.stats.newest_mtime,
            artifacts := sortArtifacts (item.report.artifacts ++ [record]) }
        let selected :=
          if item.selection_mode = SelectionMode.Auto then should_auto_select report options now
          else item.selected
        let item2 := { item with report := report, selected := selected }
        let new_sort_key := sort_key_for_report sort_mode item2.report
        .updated (item2 :: rest) (old_sort_key != new_sort_key)
    else
      match updateFirstItem record options now sort_mode rest with
      | .missing => .missing
      | .duplicate => .duplicate
      | .updated rest2 changed => .updated (item :: rest2) changed

/-- `App::upsert_artifact` from `src/tui.rs`. -/
def App.upsert_artifact (app : App) (scan_root : FsPath) (options : TuiOptions)
    (record : ArtifactRecord) : App :=
  match updateFirstItem record options app.now app.sort_mode app.items with
  | .duplicate => app
  | .updated items changed =>
    let app2 := { app with items := items }
    if changed then app2.sort_keep_cursor options else app2.ensure_selection_valid options
  | .missing =>
    let found := removeHead record.repo_root app.pending_heads
    let head_pair : Option GitHead × Bool :=
      match found.1 with
      | some head => (head, true)
      | none => (none, false)
    let report : RepoReport :=
      { repo_root := record.repo_root, head := head_pair.1, artifacts := [record],
        total_size_bytes := record.stats.size_bytes,
        newest_mtime := record.stats.newest_mtime }
    let sel_pair : Bool × SelectionMode :=
      match app.new_repo_default_selected with
      | some selected => (selected, SelectionMode.Manual)
      | none => (should_auto_select report options app.now, SelectionMode.Auto)
    let app2 :=
      { app with
        pending_heads := found.2,
        items := app.items ++
          [({ report := report, head_loaded := head_pair.2, selected := sel_pair.1,
              selection_mode := sel_pair.2,
              repo_display := display_rel_path scan_root record.repo_root } : RepoItem)] }
    (app2.sort_keep_cursor options).ensure_selection_valid options

/-- Spec-level by-age order: ascending present timestamps, an absent
timestamp after every present one, final tie broken by root path. -/
def specAgeLE (a b : RepoItem) : Prop :=
  match a.report.newest_mtime, b.report.newest_mtime with
  | some x, some y => x < y ∨ (x = y ∧ pathKey a.report.repo_root ≤ pathKey b.report.repo_root)
  | some _, none => True
  | none, some _ => False
  | none, none => pathKey a.report.repo_root ≤ pathKey b.report.repo_root

/-- Path-injectivity of a target list: targets sharing a path are equal. -/
def pathInjective (l : List DeleteTarget) : Prop :=
  ∀ t ∈ l, ∀ u ∈ l, t.path = u.path → t = u

/-- The `RepoReport` invariant of the spec: `total_size_bytes` is the sum
of the artifacts' sizes (whenever that sum fits in a `u64`, where wrapping
and saturating arithmetic both agree with it) and `newest_mtime` is the
max of the artifacts' mtimes. -/
def reportConsistent (r : RepoReport) : Prop :=
  ((r.artifacts.map (fun a => a.stats.size_bytes)).sum ≤ U64MAX →
    r.total_size_bytes = (r.artifacts.map (fun a => a.stats.size_bytes)).sum) ∧
  r.newest_mtime = mtimeMax r.artifacts

/-! ### Helper lemmas: saturating arithmetic and option-max -/

lemma satAdd_assoc (a b c : Nat) : satAdd (satAdd a b) c = satAdd a (satAdd b c) := by
  simp only [satAdd, U64MAX]
  omega

lemma satAdd_comm (a b : Nat) : satAdd a b = satAdd b a := by
  simp only [satAdd]
  omega

lemma optMax_comm (a b : Option Nat) : optMax a b = optMax b a := by
  cases a <;> cases b <;> simp [optMax, Nat.max_comm]

lemma optMax_assoc (a b c : Option Nat) :
    optMax (optMax a b) c = optMax a (optMax b c) := by
  cases a <;> cases b <;> cases c <;> simp [optMax, Nat.max_assoc]

lemma optMax_none_left (a : Option Nat) : optMax none a = a := by
  cases a <;> simp [optMax]

lemma DirStats.merge_size (a b : DirStats) :
    (a.merge b).size_bytes = satAdd a.size_bytes b.size_bytes := by
  unfold DirStats.merge DirStats.merge_mtime
  cases b.newest_mtime <;> simp

lemma DirStats.merge_newest (a b : DirStats) :
    (a.merge b).newest_mtime = optMax a.newest_mtime b.newest_mtime := by
  unfold DirStats.merge DirStats.merge_mtime
  cases hb : b.newest_mtime with
  | none => cases a.newest_mtime <;> simp [optMax]
  | some y =>
    cases ha : a.newest_mtime with
    | none => simp [optMax]
    | some x =>
      simp only [optMax]
      split
      · rename_i h
        simp [Nat.max_eq_left h]
      · rename_i h
        simp [Nat.max_eq_right (le_of_not_le h)]

lemma DirStats.eq_of_fields {a b : DirStats}
    (hs : a.size_bytes = b.size_bytes) (hn : a.newest_mtime = b.newest_mtime) : a = b := by
  cases a
  cases b
  simp_all

lemma DirStats.merge_assoc (a b c : DirStats) :
    (a.merge b).merge c = a.merge (b.merge c) := by
  apply DirStats.eq_of_fields <;>
    simp [DirStats.merge_size, DirStats.merge_newest, satAdd_assoc, optMax_assoc]

lemma DirStats.merge_comm (a b : DirStats) : a.merge b = b.merge a := by
  apply DirStats.eq_of_fields <;>
    simp [DirStats.merge_size, DirStats.merge_newest, satAdd_comm, optMax_comm]

lemma DirStats.mergeAll_size_le (l : List DirStats) :
    (DirStats.mergeAll l).size_bytes ≤ U64MAX := by
  have step : ∀ (x : DirStats) (l : List DirStats), x.size_bytes ≤ U64MAX →
      (l.foldl DirStats.merge x).size_bytes ≤ U64MAX := by
    intro x l
    induction l generalizing x with
    | nil => intro h; simpa using h
    | cons s rest ih =>
      intro _
      simp only [List.foldl_cons]
      exact ih _ (by simp only [DirStats.merge_size, satAdd]; omega)
  exact step _ _ (by simp [DirStats.empty])

lemma DirStats.merge_empty_right {x : DirStats} (h : x.size_bytes ≤ U64MAX) :
    x.merge DirStats.empty = x := by
  apply DirStats.eq_of_fields
  · simp only [DirStats.merge_size, DirStats.empty, satAdd]
    omega
  · rw [DirStats.merge_newest]
    simp only [DirStats.empty]
    cases x.newest_mtime <;> simp [optMax]

lemma DirStats.empty_merge_then (s x : DirStats) :
    (DirStats.empty.merge s).merge x = s.merge x := by
  apply DirStats.eq_of_fields
  · simp only [DirStats.merge_size, DirStats.empty, satAdd, U64MAX]
    omega
  · simp only [DirStats.merge_newest, DirStats.empty, optMax_none_left]

lemma DirStats.foldl_merge_eq {x : DirStats} (l : List DirStats)
    (h : x.size_bytes ≤ U64MAX) :
    l.foldl DirStats.merge x = x.merge (DirStats.mergeAll l) := by
  induction l generalizing x with
  | nil => simpa [DirStats.mergeAll] using (DirStats.merge_empty_right h).symm
  | cons s rest ih =>
    have hxs : (x.merge s).size_bytes ≤ U64MAX := by
      simp only [DirStats.merge_size, satAdd]; omega
    have hes : (DirStats.empty.merge s).size_bytes ≤ U64MAX := by
      simp only [DirStats.merge_size, satAdd]; omega
    calc ((s :: rest).foldl DirStats.merge x)
        = rest.foldl DirStats.merge (x.merge s) := by simp
      _ = (x.merge s).merge (DirStats.mergeAll rest) := ih hxs
      _ = x.merge (s.merge (DirStats.mergeAll rest)) := DirStats.merge_assoc ..
      _ = x.merge ((DirStats.empty.merge s).merge (DirStats.mergeAll rest)) := by
            rw [DirStats.empty_merge_then]
      _ = x.merge (rest.foldl DirStats.merge (DirStats.empty.merge s)) := by
            rw [ih hes]
      _ = x.merge (DirStats.mergeAll (s :: rest)) := by simp [DirStats.mergeAll]

lemma DirStats.mergeAll_append (l1 l2 : List DirStats) :
    DirStats.mergeAll (l1 ++ l2) = (DirStats.mergeAll l1).merge (DirStats.mergeAll l2) := by
  unfold DirStats.mergeAll
  rw [List.foldl_append]
  exact DirStats.foldl_merge_eq l2 (DirStats.mergeAll_size_le l1)

lemma DirStats.mergeAll_cons (s : DirStats) (l : List DirStats) :
    DirStats.mergeAll (s :: l) = s.merge (DirStats.mergeAll l) := by
  have h1 : DirStats.mergeAll (s :: l)
      = l.foldl DirStats.merge (DirStats.empty.merge s) := by
    simp [DirStats.mergeAll]
  rw [h1, DirStats.foldl_merge_eq l
        (by simp only [DirStats.merge_size, satAdd]; omega),
      DirStats.empty_merge_then]

/-- Claim C9: `DirStats::merge` (saturating size sum, max of optional
mtimes) is associative and commutative, so aggregating any partition of a
collection group-by-group and merging the partial results agrees with
aggregating the whole collection, in any order. -/
theorem dirstats_merge_partition_invariance :
    (∀ a b c : DirStats, (a.merge b).merge c = a.merge (b.merge c)) ∧
    (∀ a b : DirStats, a.merge b = b.merge a) ∧
    (∀ groups : List (List DirStats),
      DirStats.mergeAll (groups.map DirStats.mergeAll)
        = DirStats.mergeAll groups.flatten) ∧
    (∀ l1 l2 : List DirStats, l1.Perm l2 →
      DirStats.mergeAll l1 = DirStats.mergeAll l2) := by
  refine ⟨DirStats.merge_assoc, DirStats.merge_comm, ?_, ?_⟩
  · intro groups
    induction groups with
    | nil => rfl
    | cons g gs ih =>
      calc DirStats.mergeAll ((g :: gs).map DirStats.mergeAll)
          = (DirStats.mergeAll g).merge (DirStats.mergeAll (gs.map DirStats.mergeAll)) := by
            simp [DirStats.mergeAll_cons]
        _ = (DirStats.mergeAll g).merge (DirStats.mergeAll gs.flatten) := by rw [ih]
        _ = DirStats.mergeAll (g ++ gs.flatten) := (DirStats.mergeAll_append ..).symm
        _ = DirStats.mergeAll ((g :: gs).flatten) := by simp
  · intro l1 l2 h
    exact @List.Perm.foldl_eq _ _ DirStats.merge _ _
      ⟨fun b a c => by rw [DirStats.merge_assoc, DirStats.merge_assoc, DirStats.merge_comm a c]⟩
      h DirStats.empty

/-- Witness for `dirstats_merge_partition_invariance` at a concrete
permutation. -/
theorem dirstats_merge_partition_invariance_witness :
    DirStats.mergeAll [⟨5, some 10⟩, ⟨7, none⟩, ⟨3, some 2⟩]
      = DirStats.mergeAll [⟨3, some 2⟩, ⟨5, some 10⟩, ⟨7, none⟩] :=
  dirstats_merge_partition_invariance.2.2.2 _ _ (by decide)

/-! ### Helper lemmas: comparators and path keys -/

lemma strKey_injective : Function.Injective strKey := by
  intro a b h
  cases a
  cases b
  simp only [strKey] at h
  exact congrArg String.mk h

lemma pathKey_injective : Function.Injective pathKey := by
  intro a b h
  exact List.map_injective_iff.mpr strKey_injective h

lemma cmpPath_eq_eq_iff (a b : FsPath) : cmpPath a b = .eq ↔ a = b := by
  unfold cmpPath
  split
  · simp_all
  · split <;> simp_all

lemma cmpPath_eq_gt_iff (a b : FsPath) : cmpPath a b = .gt ↔ pathKey b < pathKey a := by
  unfold cmpPath
  by_cases he : a = b
  · subst he
    simp
  · rw [if_neg he]
    by_cases hlt : pathKey a < pathKey b
    · rw [if_pos hlt]
      constructor
      · intro h
        exact nomatch h
      · intro h
        exact absurd (lt_trans hlt h) (lt_irrefl _)
    · rw [if_neg hlt]
      constructor
      · intro _
        rcases lt_trichotomy (pathKey a) (pathKey b) with h | h | h
        · exact absurd h hlt
        · exact absurd (pathKey_injective h) he
        · exact h
      · intro _
        rfl

lemma cmpPath_ne_gt_iff (a b : FsPath) : (cmpPath a b ≠ .gt) ↔ pathKey a ≤ pathKey b := by
  rw [Ne, cmpPath_eq_gt_iff, not_lt]

lemma cmpNat_eq_eq_iff (a b : Nat) : cmpNat a b = .eq ↔ a = b := by
  unfold cmpNat
  split
  · simp_all
  · split <;> simp_all

lemma cmpNat_eq_lt_iff (a b : Nat) : cmpNat a b = .lt ↔ a < b := by
  unfold cmpNat
  by_cases he : a = b
  · subst he
    simp
  · rw [if_neg he]
    by_cases hlt : a < b
    · rw [if_pos hlt]
      simp [hlt]
    · rw [if_neg hlt]
      simp [hlt]

lemma cmpNat_ne_gt_iff (a b : Nat) : (cmpNat a b ≠ .gt) ↔ a ≤ b := by
  unfold cmpNat
  by_cases he : a = b
  · subst he
    simp
  · rw [if_neg he]
    by_cases hlt : a < b
    · rw [if_pos hlt]
      simp
      omega
    · rw [if_neg hlt]
      simp
      omega

lemma then_ne_gt_iff (o p : Ordering) :
    (o.then p ≠ .gt) ↔ (o = .lt ∨ (o = .eq ∧ p ≠ .gt)) := by
  cases o <;> simp [Ordering.then]

/-! ### Helper lemmas: the deletion executor -/

lemma execStep_spec (env : ExecEnv) (total idx : Nat) (t : DeleteTarget) (st : ExecState) :
    (execStep env total idx t st).deleted_paths
        = st.deleted_paths + (if deletesTarget env t then 1 else 0) ∧
    (execStep env total idx t st).deleted_bytes
        = (if deletesTarget env t then satAdd st.deleted_bytes t.planned_bytes
           else st.deleted_bytes) ∧
    (execStep env total idx t st).skipped_paths
        = st.skipped_paths + (if skipsTarget env t then 1 else 0) ∧
    (execStep env total idx t st).errors = st.errors ++ errsOf env t ∧
    (execStep env total idx t st).attempts = st.attempts ++ attemptsOf env t ∧
    (execStep env total idx t st).events
        = st.events ++
          [{ processed := idx + 1, total := total,
             deleted_paths := (execStep env total idx t st).deleted_paths,
             deleted_bytes := (execStep env total idx t st).deleted_bytes,
             skipped_paths := (execStep env total idx t st).skipped_paths,
             error_count := (execStep env total idx t st).errors.length }] := by
  unfold execStep deletesTarget skipsTarget errsOf attemptsOf
  cases hbl : is_blocked_path t.path
  · cases hig : env.ignore t with
    | error e => simp [emitProgress]
    | ok b =>
      cases b
      · simp [emitProgress]
      · cases hdr : env.dry_run
        · cases hrm : env.remove t <;> simp [emitProgress, hrm]
        · simp [emitProgress, hdr]
  · simp [emitProgress]

lemma execGo_run_spec (env : ExecEnv) (total : Nat) :
    ∀ (ts : List DeleteTarget) (idx : Nat) (st : ExecState),
      (∀ j, j < ts.length → env.cancel (idx + j) = false) →
      (execGo env total idx ts st).deleted_paths
          = st.deleted_paths + ts.countP (deletesTarget env) ∧
      (execGo env total idx ts st).deleted_bytes
          = ts.foldl (fun acc t => if deletesTarget env t then satAdd acc t.planned_bytes else acc)
              st.deleted_bytes ∧
      (execGo env total idx ts st).skipped_paths
          = st.skipped_paths + ts.countP (skipsTarget env) ∧
      (execGo env total idx ts st).errors = st.errors ++ ts.flatMap (errsOf env) ∧
      (execGo env total idx ts st).attempts = st.attempts ++ ts.flatMap (attemptsOf env) ∧
      (execGo env total idx ts st).events.length = st.events.length + ts.length := by
  intro ts
  induction ts with
  | nil =>
    intro idx st h
    simp [execGo]
  | cons t rest ih =>
    intro idx st h
    have hc : env.cancel idx = false := by simpa using h 0 (by simp)
    have hrest : ∀ j, j < rest.length → env.cancel (idx + 1 + j) = false := by
      intro j hj
      have hx := h (j + 1) (by simp; omega)
      rwa [show idx + (j + 1) = idx + 1 + j by omega] at hx
    have hstep := execStep_spec env total idx t st
    have hih := ih (idx + 1) (execStep env total idx t st) hrest
    have hgo : execGo env total idx (t :: rest) st
        = execGo env total (idx + 1) rest (execStep env total idx t st) := by
      simp [execGo, hc]
    refine ⟨?_, ?_, ?_, ?_, ?_, ?_⟩
    · rw [hgo, hih.1, hstep.1, List.countP_cons]
      omega
    · rw [hgo, hih.2.1, hstep.2.1, List.foldl_cons]
    · rw [hgo, hih.2.2.1, hstep.2.2.1, List.countP_cons]
      omega
    · rw [hgo, hih.2.2.2.1, hstep.2.2.2.1, List.flatMap_cons, List.append_assoc]
    · rw [hgo, hih.2.2.2.2.1, hstep.2.2.2.2.1, List.flatMap_cons, List.append_assoc]
    · rw [hgo, hih.2.2.2.2.2, hstep.2.2.2.2.2]
      simp
      omega

lemma execGo_eq_keptTargets (env : ExecEnv) (total : Nat) :
    ∀ (ts : List DeleteTarget) (idx : Nat) (st : ExecState),
      execGo env total idx ts st
        = execGo env total idx (keptTargets env.cancel idx ts) st := by
  intro ts
  induction ts with
  | nil => intro idx st; rfl
  | cons t rest ih =>
    intro idx st
    cases hc : env.cancel idx
    · simp only [execGo, keptTargets, hc, Bool.false_eq_true, if_false]
      exact ih (idx + 1) (execStep env total idx t st)
    · simp [execGo, keptTargets, hc]

lemma keptTargets_no_cancel (cancel : Nat → Bool) :
    ∀ (ts : List DeleteTarget) (idx j : Nat),
      j < (keptTargets cancel idx ts).length → cancel (idx + j) = false := by
  intro ts
  induction ts with
  | nil =>
    intro idx j h
    simp [keptTargets] at h
  | cons t rest ih =>
    intro idx j h
    cases hc : cancel idx
    · simp only [keptTargets, hc, Bool.false_eq_true, if_false, List.length_cons] at h
      cases j with
      | zero => simpa using hc
      | succ j2 =>
        have hx := ih (idx + 1) j2 (by omega)
        rwa [show idx + (j2 + 1) = idx + 1 + j2 by omega]
    · simp [keptTargets, hc] at h

lemma keptTargets_subset (cancel : Nat → Bool) :
    ∀ (ts : List DeleteTarget) (idx : Nat) (t : DeleteTarget),
      t ∈ keptTargets cancel idx ts → t ∈ ts := by
  intro ts
  induction ts with
  | nil =>
    intro idx t h
    simp [keptTargets] at h
  | cons u rest ih =>
    intro idx t h
    cases hc : cancel idx
    · simp only [keptTargets, hc, Bool.false_eq_true, if_false, List.mem_cons] at h
      rcases h with h | h
      · exact h ▸ List.mem_cons_self u rest
      · exact List.mem_cons_of_mem u (ih (idx + 1) t h)
    · simp [keptTargets, hc] at h

lemma mem_keptTargets_of_no_cancel (cancel : Nat → Bool) :
    ∀ (ts : List DeleteTarget) (i idx : Nat) (h : i < ts.length),
      (∀ j, j ≤ i → cancel (idx + j) = false) →
      ts.get ⟨i, h⟩ ∈ keptTargets cancel idx ts := by
  intro ts
  induction ts with
  | nil =>
    intro i idx h _
    simp at h
  | cons t rest ih =>
    intro i idx h hnc
    have hc : cancel idx = false := by simpa using hnc 0 (by omega)
    simp only [keptTargets, hc, Bool.false_eq_true, if_false]
    cases i with
    | zero => simp
    | succ i2 =>
      have hrec := ih i2 (idx + 1) (by simpa using h) (fun j hj => by
        have hx := hnc (j + 1) (by omega)
        rwa [show idx + (j + 1) = idx + 1 + j by omega] at hx)
      simpa using List.mem_cons_of_mem t hrec

lemma keptTargets_eq_take (cancel : Nat → Bool) :
    ∀ (ts : List DeleteTarget) (idx i : Nat),
      cancel (idx + i) = true → (∀ j, j < i → cancel (idx + j) = false) →
      keptTargets cancel idx ts = ts.take i := by
  intro ts
  induction ts with
  | nil =>
    intro idx i _ _
    simp [keptTargets]
  | cons t rest ih =>
    intro idx i hci hlt
    cases i with
    | zero =>
      have hc : cancel idx = true := by simpa using hci
      simp [keptTargets, hc]
    | succ i2 =>
      have hc : cancel idx = false := by simpa using hlt 0 (by omega)
      simp only [keptTargets, hc, Bool.false_eq_true, if_false, List.take_succ_cons,
        List.cons.injEq, true_and]
      exact ih (idx + 1) i2
        (by rwa [show idx + 1 + i2 = idx + (i2 + 1) by omega])
        (fun j hj => by
          have hx := hlt (j + 1) (by omega)
          rwa [show idx + (j + 1) = idx + 1 + j by omega] at hx)

lemma attemptsOf_spec (env : ExecEnv) (t : DeleteTarget) (p : FsPath)
    (hp : p ∈ attemptsOf env t) : is_blocked_path p = false ∧ p = t.path := by
  unfold attemptsOf at hp
  cases hbl : is_blocked_path t.path
  · rw [hbl] at hp
    simp only [Bool.false_eq_true, if_false] at hp
    cases hig : env.ignore t with
    | error e => rw [hig] at hp; simp at hp
    | ok b =>
      rw [hig] at hp
      cases b
      · simp at hp
      · cases hdr : env.dry_run <;> rw [hdr] at hp <;> simp at hp
        subst hp
        exact ⟨hbl, rfl⟩
  · rw [hbl] at hp
    simp at hp

lemma errsOf_blocked (env : ExecEnv) (t : DeleteTarget)
    (hbl : is_blocked_path t.path = true) :
    errsOf env t = [(t.path, "refusing to delete blocked path")] := by
  unfold errsOf
  rw [hbl]
  simp

lemma skipsTarget_blocked (env : ExecEnv) (t : DeleteTarget)
    (hbl : is_blocked_path t.path = true) : skipsTarget env t = true := by
  unfold skipsTarget
  rw [hbl]
  simp

lemma exec_as_kept (env : ExecEnv) (ts : List DeleteTarget) :
    execute_delete_with_progress env ts
      = execGo env ts.length 0 (keptTargets env.cancel 0 ts) initExecState := by
  unfold execute_delete_with_progress
  exact execGo_eq_keptTargets env ts.length ts 0 initExecState

lemma kept_run_spec (env : ExecEnv) (ts : List DeleteTarget) :
    (execute_delete_with_progress env ts).deleted_paths
        = (keptTargets env.cancel 0 ts).countP (deletesTarget env) ∧
    (execute_delete_with_progress env ts).deleted_bytes
        = (keptTargets env.cancel 0 ts).foldl
            (fun acc t => if deletesTarget env t then satAdd acc t.planned_bytes else acc) 0 ∧
    (execute_delete_with_progress env ts).skipped_paths
        = (keptTargets env.cancel 0 ts).countP (skipsTarget env) ∧
    (execute_delete_with_progress env ts).errors
        = (keptTargets env.cancel 0 ts).flatMap (errsOf env) ∧
    (execute_delete_with_progress env ts).attempts
        = (keptTargets env.cancel 0 ts).flatMap (attemptsOf env) ∧
    (execute_delete_with_progress env ts).events.length
        = (keptTargets env.cancel 0 ts).length := by
  have hrun := execGo_run_spec env ts.length (keptTargets env.cancel 0 ts) 0 initExecState
    (fun j hj => by simpa using keptTargets_no_cancel env.cancel ts 0 j hj)
  rw [exec_as_kept]
  simpa [initExecState] using hrun

/-- Claim C1: a target whose final path component is `.git` is never handed
to `fs::remove_dir_all` (no removal attempt ever carries a blocked path),
and whenever the loop reaches such a target (no cancellation up to its
index) it is counted as skipped — `skipped_paths` counts exactly the
processed targets whose outcome is a skip, and a blocked target is such a
target — with a `(path, error)` pair recorded in the summary, regardless of
dry-run, the ignore oracle, or the removal oracle. -/
theorem blocked_target_never_removed (env : ExecEnv) (ts : List DeleteTarget) :
    (∀ p ∈ (execute_delete_with_progress env ts).attempts, is_blocked_path p = false) ∧
    (execute_delete_with_progress env ts).skipped_paths
        = (keptTargets env.cancel 0 ts).countP (skipsTarget env) ∧
    (∀ i, (h : i < ts.length) → is_blocked_path (ts.get ⟨i, h⟩).path = true →
      (∀ j, j ≤ i → env.cancel j = false) →
      ((ts.get ⟨i, h⟩).path, "refusing to delete blocked path")
          ∈ (execute_delete_with_progress env ts).errors ∧
        skipsTarget env (ts.get ⟨i, h⟩) = true) := by
  have hrun := kept_run_spec env ts
  refine ⟨?_, hrun.2.2.1, ?_⟩
  · intro p hp
    rw [hrun.2.2.2.2.1] at hp
    obtain ⟨t, _, hpt⟩ := List.mem_flatMap.mp hp
    exact (attemptsOf_spec env t p hpt).1
  · intro i h hbl hnc
    have hmem : ts.get ⟨i, h⟩ ∈ keptTargets env.cancel 0 ts :=
      mem_keptTargets_of_no_cancel env.cancel ts i 0 h (fun j hj => by simpa using hnc j hj)
    refine ⟨?_, skipsTarget_blocked env _ hbl⟩
    rw [hrun.2.2.2.1]
    exact List.mem_flatMap.mpr ⟨ts.get ⟨i, h⟩, hmem, by rw [errsOf_blocked env _ hbl]; simp⟩

/-- Witness for `blocked_target_never_removed`: a concrete one-target plan
whose only target ends in `.git`; its error pair is recorded. -/
theorem blocked_target_never_removed_witness :
    ((["repo", ".git"] : FsPath), "refusing to delete blocked path")
        ∈ (execute_delete_with_progress
            ⟨false, fun _ => false, fun _ => .ok true, fun _ => .ok⟩
            [⟨["repo"], ["repo", ".git"], 4⟩]).errors :=
  ((blocked_target_never_removed
      ⟨false, fun _ => false, fun _ => .ok true, fun _ => .ok⟩
      [⟨["repo"], ["repo", ".git"], 4⟩]).2.2 0 (by decide) (by decide)
    (fun _ _ => rfl)).1

/-- Claim C3: if the cancellation signal first reads true at iteration `i`
(0-based; before 1-based target `k = i + 1` is processed), the executor's
final state is the state after running only the first `i` targets — no
later target contributes to any count, error, snapshot, or removal
attempt — and every removal attempt made stems from those first `i`
targets. -/
theorem cancellation_stops_processing (env : ExecEnv) (ts : List DeleteTarget) (i : Nat)
    (hc : env.cancel i = true) (hprev : ∀ j, j < i → env.cancel j = false) :
    execute_delete_with_progress env ts
        = execGo env ts.length 0 (ts.take i) initExecState ∧
    (∀ p ∈ (execute_delete_with_progress env ts).attempts,
        ∃ t ∈ ts.take i, p = t.path) := by
  have hkept : keptTargets env.cancel 0 ts = ts.take i :=
    keptTargets_eq_take env.cancel ts 0 i (by simpa using hc)
      (fun j hj => by simpa using hprev j hj)
  have heq : execute_delete_with_progress env ts
      = execGo env ts.length 0 (ts.take i) initExecState := by
    rw [exec_as_kept, hkept]
  refine ⟨heq, ?_⟩
  intro p hp
  have hrun := kept_run_spec env ts
  rw [hrun.2.2.2.2.1, hkept] at hp
  obtain ⟨t, htmem, hpt⟩ := List.mem_flatMap.mp hp
  exact ⟨t, htmem, (attemptsOf_spec env t p hpt).2⟩

/-- Witness for `cancellation_stops_processing`: five targets, the signal
reads true from iteration 2 on; execution equals a run over the first two
targets. -/
theorem cancellation_stops_processing_witness :
    execute_delete_with_progress
        ⟨false, fun j => decide (2 ≤ j), fun _ => .ok true, fun _ => .ok⟩
        [⟨["r"], ["r", "a"], 1⟩, ⟨["r"], ["r", "b"], 2⟩, ⟨["r"], ["r", "c"], 3⟩,
         ⟨["r"], ["r", "d"], 4⟩, ⟨["r"], ["r", "e"], 5⟩]
      = execGo ⟨false, fun j => decide (2 ≤ j), fun _ => .ok true, fun _ => .ok⟩
          ([⟨["r"], ["r", "a"], 1⟩, ⟨["r"], ["r", "b"], 2⟩, ⟨["r"], ["r", "c"], 3⟩,
            ⟨["r"], ["r", "d"], 4⟩, ⟨["r"], ["r", "e"], 5⟩] : List DeleteTarget).length 0
          (([⟨["r"], ["r", "a"], 1⟩, ⟨["r"], ["r", "b"], 2⟩, ⟨["r"], ["r", "c"], 3⟩,
             ⟨["r"], ["r", "d"], 4⟩, ⟨["r"], ["r", "e"], 5⟩] : List DeleteTarget).take 2)
          initExecState :=
  (cancellation_stops_processing _ _ 2 (by decide) (by decide)).1

lemma deletesTarget_dry (env : ExecEnv) (t : DeleteTarget) (hdry : env.dry_run = true) :
    deletesTarget env t = false := by
  unfold deletesTarget
  cases hbl : is_blocked_path t.path
  · simp only [Bool.false_eq_true, if_false]
    cases hig : env.ignore t with
    | error e => rfl
    | ok b => cases b <;> simp [hdry]
  · simp

lemma attemptsOf_dry (env : ExecEnv) (t : DeleteTarget) (hdry : env.dry_run = true) :
    attemptsOf env t = [] := by
  unfold attemptsOf
  cases hbl : is_blocked_path t.path
  · simp only [Bool.false_eq_true, if_false]
    cases hig : env.ignore t with
    | error e => rfl
    | ok b => cases b <;> simp [hdry]
  · simp

lemma flatMap_nil_of_forall {α β : Type} (f : α → List β) :
    ∀ (l : List α), (∀ x ∈ l, f x = []) → l.flatMap f = [] := by
  intro l
  induction l with
  | nil => intro _; rfl
  | cons a rest ih =>
    intro h
    rw [List.flatMap_cons, h a (List.mem_cons_self a rest), List.nil_append]
    exact ih (fun x hx => h x (List.mem_cons_of_mem a hx))

lemma foldl_id_of_forall_not (env : ExecEnv) :
    ∀ (l : List DeleteTarget) (b : Nat), (∀ t ∈ l, deletesTarget env t = false) →
      l.foldl (fun acc t => if deletesTarget env t then satAdd acc t.planned_bytes else acc) b
        = b := by
  intro l
  induction l with
  | nil => intro b _; rfl
  | cons t rest ih =>
    intro b h
    rw [List.foldl_cons, h t (List.mem_cons_self t rest)]
    simp only [Bool.false_eq_true, if_false]
    exact ih b (fun x hx => h x (List.mem_cons_of_mem t hx))

lemma execGo_dry_events (env : ExecEnv) (hdry : env.dry_run = true) (total : Nat) :
    ∀ (ts : List DeleteTarget) (idx : Nat) (st : ExecState),
      st.deleted_paths = 0 → st.deleted_bytes = 0 →
      (∀ e ∈ st.events, e.deleted_paths = 0 ∧ e.deleted_bytes = 0) →
      (execGo env total idx ts st).deleted_paths = 0 ∧
      (execGo env total idx ts st).deleted_bytes = 0 ∧
      (∀ e ∈ (execGo env total idx ts st).events,
          e.deleted_paths = 0 ∧ e.deleted_bytes = 0) := by
  intro ts
  induction ts with
  | nil =>
    intro idx st h1 h2 h3
    exact ⟨h1, h2, h3⟩
  | cons t rest ih =>
    intro idx st h1 h2 h3
    cases hc : env.cancel idx
    · have hstep := execStep_spec env total idx t st
      have hd := deletesTarget_dry env t hdry
      have s1 : (execStep env total idx t st).deleted_paths = 0 := by
        rw [hstep.1, hd]
        simpa using h1
      have s2 : (execStep env total idx t st).deleted_bytes = 0 := by
        rw [hstep.2.1, hd]
        simpa using h2
      have s3 : ∀ e ∈ (execStep env total idx t st).events,
          e.deleted_paths = 0 ∧ e.deleted_bytes = 0 := by
        rw [hstep.2.2.2.2.2]
        intro e he
        rcases List.mem_append.mp he with he | he
        · exact h3 e he
        · have : e = { processed := idx + 1, total := total,
                       deleted_paths := (execStep env total idx t st).deleted_paths,
                       deleted_bytes := (execStep env total idx t st).deleted_bytes,
                       skipped_paths := (execStep env total idx t st).skipped_paths,
                       error_count := (execStep env total idx t st).errors.length } := by
            simpa using he
          subst this
          exact ⟨s1, s2⟩
      have hrec := ih (idx + 1) (execStep env total idx t st) s1 s2 s3
      simpa [execGo, hc] using hrec
    · simp only [execGo, hc, if_true]
      exact ⟨h1, h2, h3⟩

/-- Claim C7: in dry-run mode the executor never calls
`fs::remove_dir_all` (no removal attempts), never increments
`deleted_paths` or `deleted_bytes` (also in every emitted snapshot), yet
still emits one progress snapshot per target the loop reaches before
cancellation. -/
theorem dry_run_reports_without_mutation (env : ExecEnv) (ts : List DeleteTarget)
    (hdry : env.dry_run = true) :
    (execute_delete_with_progress env ts).attempts = [] ∧
    (execute_delete_with_progress env ts).deleted_paths = 0 ∧
    (execute_delete_with_progress env ts).deleted_bytes = 0 ∧
    (∀ e ∈ (execute_delete_with_progress env ts).events,
        e.deleted_paths = 0 ∧ e.deleted_bytes = 0) ∧
    (execute_delete_with_progress env ts).events.length
        = (keptTargets env.cancel 0 ts).length := by
  have hrun := kept_run_spec env ts
  have hdryrun := execGo_dry_events env hdry ts.length ts 0 initExecState rfl rfl
    (by intro e he; simp [initExecState] at he)
  refine ⟨?_, ?_, ?_, ?_, hrun.2.2.2.2.2⟩
  · rw [hrun.2.2.2.2.1]
    exact flatMap_nil_of_forall _ _ (fun t _ => attemptsOf_dry env t hdry)
  · exact hdryrun.1
  · exact hdryrun.2.1
  · exact hdryrun.2.2

/-- Witness for `dry_run_reports_without_mutation`: a concrete 3-target
dry run over ignored, unblocked targets ends with three snapshots, the
last reading `processed = 3`, and zero deleted paths and bytes. -/
theorem dry_run_reports_without_mutation_witness :
    (execute_delete_with_progress
        ⟨true, fun _ => false, fun _ => .ok true, fun _ => .ok⟩
        [⟨["r"], ["r", "a"], 1⟩, ⟨["r"], ["r", "b"], 2⟩, ⟨["r"], ["r", "c"], 3⟩]).attempts
      = [] ∧
    (execute_delete_with_progress
        ⟨true, fun _ => false, fun _ => .ok true, fun _ => .ok⟩
        [⟨["r"], ["r", "a"], 1⟩, ⟨["r"], ["r", "b"], 2⟩, ⟨["r"], ["r", "c"], 3⟩]).deleted_paths
      = 0 ∧
    (execute_delete_with_progress
        ⟨true, fun _ => false, fun _ => .ok true, fun _ => .ok⟩
        [⟨["r"], ["r", "a"], 1⟩, ⟨["r"], ["r", "b"], 2⟩, ⟨["r"], ["r", "c"], 3⟩]).deleted_bytes
      = 0 ∧
    ((execute_delete_with_progress
        ⟨true, fun _ => false, fun _ => .ok true, fun _ => .ok⟩
        [⟨["r"], ["r", "a"], 1⟩, ⟨["r"], ["r", "b"], 2⟩, ⟨["r"], ["r", "c"], 3⟩]).events.map
      DeleteProgress.processed) = [1, 2, 3] :=
  ⟨(dry_run_reports_without_mutation _ _ rfl).1,
   (dry_run_reports_without_mutation _ _ rfl).2.1,
   (dry_run_reports_without_mutation _ _ rfl).2.2.1,
   by decide⟩

/-- Claim C10: `is_git_ignored` fails without consulting version control
when the path is not lexically under the repository root, and the executor
consequently records such an (unblocked) target as a skip with a
`(path, error)` pair instead of deleting it. -/
theorem unrooted_target_skipped_with_error :
    (∀ (genv : GitEnv) (root p : FsPath), root.isPrefixOf p = false →
        is_git_ignored genv root p = .error "path is not under repo root") ∧
    (∀ (genv : GitEnv) (dry : Bool) (cancel : Nat → Bool)
        (rem : DeleteTarget → RemoveResult) (ts : List DeleteTarget)
        (i : Nat) (h : i < ts.length),
      is_blocked_path (ts.get ⟨i, h⟩).path = false →
      (ts.get ⟨i, h⟩).repo_root.isPrefixOf (ts.get ⟨i, h⟩).path = false →
      (∀ j, j ≤ i → cancel j = false) →
      ((ts.get ⟨i, h⟩).path, "path is not under repo root")
          ∈ (execute_delete_with_progress
              ⟨dry, cancel, fun t => is_git_ignored genv t.repo_root t.path, rem⟩ ts).errors ∧
        skipsTarget ⟨dry, cancel, fun t => is_git_ignored genv t.repo_root t.path, rem⟩
            (ts.get ⟨i, h⟩) = true ∧
        deletesTarget ⟨dry, cancel, fun t => is_git_ignored genv t.repo_root t.path, rem⟩
            (ts.get ⟨i, h⟩) = false) := by
  have herr : ∀ (genv : GitEnv) (root p : FsPath), root.isPrefixOf p = false →
      is_git_ignored genv root p = .error "path is not under repo root" := by
    intro genv root p h
    unfold is_git_ignored stripRoot
    rw [h]
    simp
  refine ⟨herr, ?_⟩
  intro genv dry cancel rem ts i h hbl hpre hnc
  set env : ExecEnv := ⟨dry, cancel, fun t => is_git_ignored genv t.repo_root t.path, rem⟩
    with henv
  have hig : env.ignore (ts.get ⟨i, h⟩) = .error "path is not under repo root" :=
    herr genv _ _ hpre
  have hmem : ts.get ⟨i, h⟩ ∈ keptTargets env.cancel 0 ts :=
    mem_keptTargets_of_no_cancel env.cancel ts i 0 h (fun j hj => by simpa using hnc j hj)
  have hrun := kept_run_spec env ts
  refine ⟨?_, ?_, ?_⟩
  · rw [hrun.2.2.2.1]
    refine List.mem_flatMap.mpr ⟨ts.get ⟨i, h⟩, hmem, ?_⟩
    unfold errsOf
    rw [hbl, hig]
    simp
  · unfold skipsTarget
    rw [hbl, hig]
    simp
  · unfold deletesTarget
    rw [hbl, hig]
    simp

/-- Witness for `unrooted_target_skipped_with_error`: a concrete target
whose path is not under its repository root is recorded as an error, even
though the git oracle would report everything ignored. -/
theorem unrooted_target_skipped_with_error_witness :
    ((["b", "x"] : FsPath), "path is not under repo root")
        ∈ (execute_delete_with_progress
            ⟨false, fun _ => false,
             fun t => is_git_ignored ⟨fun _ _ => .ok (some 0)⟩ t.repo_root t.path,
             fun _ => .ok⟩
            [⟨["a"], ["b", "x"], 1⟩]).errors :=
  (unrooted_target_skipped_with_error.2 ⟨fun _ _ => .ok (some 0)⟩ false (fun _ => false)
      (fun _ => .ok) [⟨["a"], ["b", "x"], 1⟩] 0 (by decide) (by decide) (by decide)
      (fun _ _ => rfl)).1

/-! ### Helper lemmas: report building -/

lemma process_candidate_some (env : ReportEnv) (p : FsPath) (r : ArtifactRecord)
    (h : process_candidate env p = some r) :
    env.is_ignored r.repo_root r.path = .ok true ∧ r.path = p ∧
      env.find_git_root p = some r.repo_root := by
  unfold process_candidate at h
  split at h
  · exact absurd h (by simp)
  · rename_i root hfind
    split at h
    · exact absurd h (by simp)
    · exact absurd h (by simp)
    · rename_i hig
      split at h
      · exact absurd h (by simp)
      · rename_i stats hst
        simp only [Option.some.injEq] at h
        subst h
        exact ⟨hig, rfl, hfind⟩

lemma insertRecord_mem (root : FsPath) (rec : ArtifactRecord) :
    ∀ (acc : List (FsPath × List ArtifactRecord)) (g : FsPath × List ArtifactRecord),
      g ∈ insertRecord root rec acc → ∀ a ∈ g.2,
        (∃ g0 ∈ acc, a ∈ g0.2 ∧ g0.1 = g.1) ∨ (a = rec ∧ g.1 = root) := by
  intro acc
  induction acc with
  | nil =>
    intro g hg a ha
    simp only [insertRecord, List.mem_singleton] at hg
    subst hg
    simp only [List.mem_singleton] at ha
    exact Or.inr ⟨ha, rfl⟩
  | cons p rest ih =>
    intro g hg a ha
    obtain ⟨r, recs⟩ := p
    by_cases hr : r = root
    · rw [insertRecord, if_pos hr] at hg
      rcases List.mem_cons.mp hg with hg | hg
      · subst hg
        simp only at ha
        rcases List.mem_append.mp ha with ha | ha
        · exact Or.inl ⟨(r, recs), List.mem_cons_self _ _, ha, rfl⟩
        · simp only [List.mem_singleton] at ha
          exact Or.inr ⟨ha, hr⟩
      · exact Or.inl ⟨g, List.mem_cons_of_mem _ hg, ha, rfl⟩
    · rw [insertRecord, if_neg hr] at hg
      rcases List.mem_cons.mp hg with hg | hg
      · subst hg
        exact Or.inl ⟨(r, recs), List.mem_cons_self _ _, ha, rfl⟩
      · rcases ih g hg a ha with ⟨g0, hg0, hag0, heq⟩ | hright
        · exact Or.inl ⟨g0, List.mem_cons_of_mem _ hg0, hag0, heq⟩
        · exact Or.inr hright

lemma groupByRoot_aux (base : List ArtifactRecord) :
    ∀ (recs : List ArtifactRecord) (acc : List (FsPath × List ArtifactRecord)),
      (∀ g ∈ acc, ∀ a ∈ g.2, a ∈ base ∧ a.repo_root = g.1) →
      (∀ r ∈ recs, r ∈ base) →
      ∀ g ∈ recs.foldl (fun acc rec => insertRecord rec.repo_root rec acc) acc,
        ∀ a ∈ g.2, a ∈ base ∧ a.repo_root = g.1 := by
  intro recs
  induction recs with
  | nil =>
    intro acc hacc _ g hg a ha
    exact hacc g hg a ha
  | cons rec rest ih =>
    intro acc hacc hmem g hg a ha
    refine ih (insertRecord rec.repo_root rec acc) ?_
      (fun r hr => hmem r (List.mem_cons_of_mem _ hr)) g (by simpa using hg) a ha
    intro g1 hg1 a1 ha1
    rcases insertRecord_mem rec.repo_root rec acc g1 hg1 a1 ha1 with
      ⟨g0, hg0, hag0, heq⟩ | ⟨harec, hroot⟩
    · have := hacc g0 hg0 a1 hag0
      exact ⟨this.1, heq ▸ this.2⟩
    · subst harec
      exact ⟨hmem a1 (List.mem_cons_self _ _), hroot.symm⟩

lemma groupByRoot_mem (records : List ArtifactRecord) :
    ∀ g ∈ groupByRoot records, ∀ a ∈ g.2, a ∈ records ∧ a.repo_root = g.1 := by
  intro g hg a ha
  exact groupByRoot_aux records records [] (by simp) (fun r hr => hr) g hg a ha

lemma collect_reports_shape (env : ReportEnv) (cs : List FsPath) (rep : RepoReport)
    (h : rep ∈ collect_reports env cs) :
    ∃ g ∈ groupByRoot (cs.filterMap (process_candidate env)),
      rep.repo_root = g.1 ∧ rep.artifacts = sortArtifacts g.2 ∧
      rep.total_size_bytes = u64sum ((sortArtifacts g.2).map (fun a => a.stats.size_bytes)) ∧
      rep.newest_mtime = mtimeMax (sortArtifacts g.2) := by
  unfold collect_reports at h
  rw [(List.perm_insertionSort _ _).mem_iff] at h
  obtain ⟨g, hg, hrep⟩ := List.mem_map.mp h
  subst hrep
  exact ⟨g, hg, rfl, rfl, rfl, rfl⟩

/-- Claim C2: an `ArtifactRecord` is produced only when the ignore query
answered `Ok(true)` for the candidate; a candidate whose query answers
`Ok(false)` or errors yields no record; hence every artifact in every
report of `collect_reports` carries an `Ok(true)` verdict of the ignore
query for its (root, path) pair. -/
theorem artifacts_confirmed_ignored :
    (∀ (env : ReportEnv) (p : FsPath) (r : ArtifactRecord),
        process_candidate env p = some r →
        env.is_ignored r.repo_root r.path = .ok true ∧ r.path = p ∧
          env.find_git_root p = some r.repo_root) ∧
    (∀ (env : ReportEnv) (p : FsPath),
        (∀ root, env.find_git_root p = some root → env.is_ignored root p ≠ .ok true) →
        process_candidate env p = none) ∧
    (∀ (env : ReportEnv) (cs : List FsPath) (rep : RepoReport),
        rep ∈ collect_reports env cs → ∀ a ∈ rep.artifacts,
          env.is_ignored a.repo_root a.path = .ok true ∧ a.repo_root = rep.repo_root) := by
  refine ⟨process_candidate_some, ?_, ?_⟩
  · intro env p hnone
    unfold process_candidate
    split
    · rfl
    · rename_i root hfind
      split
      · rfl
      · rfl
      · rename_i hig
        exact absurd hig (hnone root hfind)
  · intro env cs rep hrep a ha
    obtain ⟨g, hg, hroot, harts, _, _⟩ := collect_reports_shape env cs rep hrep
    rw [harts] at ha
    have hag : a ∈ g.2 := by
      rw [sortArtifacts, (List.perm_insertionSort _ _).mem_iff] at ha
      exact ha
    have hrec := groupByRoot_mem _ g hg a hag
    obtain ⟨p, _, hpc⟩ := List.mem_filterMap.mp hrec.1
    have hp := process_candidate_some env p a hpc
    exact ⟨hp.1, by rw [hroot, hrec.2]⟩

/-- Witness for `artifacts_confirmed_ignored`: a concrete environment and
candidate whose produced record carries the positive ignore verdict. -/
theorem artifacts_confirmed_ignored_witness :
    (⟨fun _ => some ["r"], fun _ _ => .ok true, fun _ => .ok ⟨1, none⟩,
      fun _ => .ok none⟩ : ReportEnv).is_ignored ["r"] ["r", "t"] = .ok true :=
  (artifacts_confirmed_ignored.1
    ⟨fun _ => some ["r"], fun _ _ => .ok true, fun _ => .ok ⟨1, none⟩, fun _ => .ok none⟩
    ["r", "t"] ⟨["r"], ["r", "t"], ⟨1, none⟩⟩ rfl).1

/-! ### Helper lemmas: report totals and the interactive upsert -/

lemma u64sum_eq_sum {l : List Nat} (h : l.sum ≤ U64MAX) : u64sum l = l.sum := by
  have aux : ∀ (l : List Nat) (a : Nat), a < U64MAX + 1 →
      l.foldl wrapAdd a = (a + l.sum) % (U64MAX + 1) := by
    intro l
    induction l with
    | nil =>
      intro a ha
      simp [Nat.mod_eq_of_lt ha]
    | cons x rest ih =>
      intro a ha
      rw [List.foldl_cons]
      show rest.foldl wrapAdd ((a + x) % (U64MAX + 1)) = _
      rw [ih _ (Nat.mod_lt _ (by omega))]
      rw [Nat.mod_add_mod]
      congr 1
      simp only [List.sum_cons]
      omega
  unfold u64sum
  rw [aux l 0 (by omega), Nat.zero_add]
  exact Nat.mod_eq_of_lt (by omega)

lemma mtimeMax_perm {l1 l2 : List ArtifactRecord} (h : l1.Perm l2) :
    mtimeMax l1 = mtimeMax l2 := by
  unfold mtimeMax
  exact @List.Perm.foldl_eq _ _ _ _ _
    ⟨fun b a c => by rw [optMax_assoc, optMax_assoc, optMax_comm a.stats.newest_mtime]⟩
    h none

lemma mtimeMax_append_single (l : List ArtifactRecord) (a : ArtifactRecord) :
    mtimeMax (l ++ [a]) = optMax (mtimeMax l) a.stats.newest_mtime := by
  unfold mtimeMax
  rw [List.foldl_append]
  rfl

lemma sortArtifacts_perm (l : List ArtifactRecord) : (sortArtifacts l).Perm l :=
  List.perm_insertionSort _ l

lemma sortItems_perm (mode : SortMode) (items : List RepoItem) :
    (sortItems mode items).Perm items := by
  cases mode <;> exact List.perm_insertionSort _ _

lemma restore_selection_items (app : App) (o : TuiOptions) (root : Option FsPath) :
    (app.restore_selection o root).items = app.items := by
  unfold App.restore_selection
  split
  · rfl
  · split
    · split <;> rfl
    · rfl

lemma ensure_selection_valid_items (app : App) (o : TuiOptions) :
    (app.ensure_selection_valid o).items = app.items := by
  unfold App.ensure_selection_valid
  split
  · rfl
  · split
    · split <;> rfl
    · rfl

lemma sort_keep_cursor_items (app : App) (o : TuiOptions) :
    (app.sort_keep_cursor o).items = sortItems app.sort_mode app.items := by
  unfold App.sort_keep_cursor
  rw [restore_selection_items]

lemma updateFirstItem_updated (record : ArtifactRecord) (options : TuiOptions) (now : Nat)
    (mode : SortMode) :
    ∀ (items items2 : List RepoItem) (ch : Bool),
      updateFirstItem record options now mode items = .updated items2 ch →
      ∀ it ∈ items2, it ∈ items ∨
        ∃ it0 ∈ items,
          it.report.repo_root = it0.report.repo_root ∧
          it.report.total_size_bytes
              = satAdd it0.report.total_size_bytes record.stats.size_bytes ∧
          it.report.newest_mtime
              = optMax it0.report.newest_mtime record.stats.newest_mtime ∧
          it.report.artifacts = sortArtifacts (it0.report.artifacts ++ [record]) := by
  intro items
  induction items with
  | nil =>
    intro items2 ch h
    exact nomatch h
  | cons item rest ih =>
    intro items2 ch h
    unfold updateFirstItem at h
    split at h
    · split at h
      · exact nomatch h
      · simp only [UpsertStep.updated.injEq] at h
        obtain ⟨hitems, _⟩ := h
        subst hitems
        intro it hit
        rcases List.mem_cons.mp hit with hit | hit
        · subst hit
          exact Or.inr ⟨item, List.mem_cons_self _ _, rfl, rfl, rfl, rfl⟩
        · exact Or.inl (List.mem_cons_of_mem _ hit)
    · rename_i hne
      split at h
      · exact nomatch h
      · exact nomatch h
      · rename_i rest2 ch2 hrec
        simp only [UpsertStep.updated.injEq] at h
        obtain ⟨hitems, hch⟩ := h
        subst hitems
        intro it hit
        rcases List.mem_cons.mp hit with hit | hit
        · subst hit
          exact Or.inl (List.mem_cons_self _ _)
        · rcases ih rest2 ch2 hrec it hit with hin | ⟨it0, hit0, hfields⟩
          · exact Or.inl (List.mem_cons_of_mem _ hin)
          · exact Or.inr ⟨it0, List.mem_cons_of_mem _ hit0, hfields⟩

lemma updateFirstItem_missing (record : ArtifactRecord) (options : TuiOptions) (now : Nat)
    (mode : SortMode) :
    ∀ (items : List RepoItem),
      (∀ it ∈ items, it.report.repo_root ≠ record.repo_root) →
      updateFirstItem record options now mode items = .missing := by
  intro items
  induction items with
  | nil => intro _; rfl
  | cons item rest ih =>
    intro h
    unfold updateFirstItem
    rw [if_neg (h item (List.mem_cons_self _ _))]
    rw [ih (fun it hit => h it (List.mem_cons_of_mem _ hit))]

/-- Claim C8: every `RepoReport` built by the batch collector and every
report maintained across an incremental artifact insertion in the session
satisfies the consistency invariant: `total_size_bytes` is the sum of the
artifacts' sizes (whenever that sum fits a `u64`) and `newest_mtime` is
the max of the artifacts' mtimes. -/
theorem report_totals_consistent :
    (∀ (env : ReportEnv) (cs : List FsPath) (rep : RepoReport),
        rep ∈ collect_reports env cs → reportConsistent rep) ∧
    (∀ (app : App) (scan_root : FsPath) (options : TuiOptions) (record : ArtifactRecord),
        (∀ item ∈ app.items, reportConsistent item.report) →
        ∀ item ∈ (app.upsert_artifact scan_root options record).items,
          reportConsistent item.report) := by
  constructor
  · intro env cs rep hrep
    obtain ⟨g, _, _, harts, htotal, hnewest⟩ := collect_reports_shape env cs rep hrep
    constructor
    · intro hsum
      rw [htotal, harts, u64sum_eq_sum (by rwa [harts] at hsum)]
    · rw [hnewest, harts]
  · intro app scan_root options record hinv item hit
    have upd_consistent : ∀ it : RepoItem, it ∈ app.items ∨
        (∃ it0 ∈ app.items,
          it.report.repo_root = it0.report.repo_root ∧
          it.report.total_size_bytes
              = satAdd it0.report.total_size_bytes record.stats.size_bytes ∧
          it.report.newest_mtime
              = optMax it0.report.newest_mtime record.stats.newest_mtime ∧
          it.report.artifacts = sortArtifacts (it0.report.artifacts ++ [record])) →
        reportConsistent it.report := by
      intro it hcase
      rcases hcase with hin | ⟨it0, hit0, _, htotal, hnewest, harts⟩
      · exact hinv it hin
      · have h0 := hinv it0 hit0
        have hperm : (it.report.artifacts.map (fun a => a.stats.size_bytes)).Perm
            ((it0.report.artifacts ++ [record]).map (fun a => a.stats.size_bytes)) := by
          rw [harts]
          exact (sortArtifacts_perm _).map _
        constructor
        · intro hsum
          have hsums : (it.report.artifacts.map (fun a => a.stats.size_bytes)).sum
              = (it0.report.artifacts.map (fun a => a.stats.size_bytes)).sum
                + record.stats.size_bytes := by
            rw [hperm.sum_eq]
            simp
          rw [hsums] at hsum ⊢
          have h0sum := h0.1 (by omega)
          rw [htotal, h0sum]
          simp only [satAdd]
          omega
        · have hm : mtimeMax it.report.artifacts
              = mtimeMax (it0.report.artifacts ++ [record]) := by
            rw [harts]
            exact mtimeMax_perm (sortArtifacts_perm _)
          rw [hm, mtimeMax_append_single, hnewest, h0.2]
    unfold App.upsert_artifact at hit
    split at hit
    · exact hinv item hit
    · rename_i items2 changed hupd
      have hmem : item ∈ items2 := by
        cases changed
        · rwa [if_neg (by simp), ensure_selection_valid_items] at hit
        · rw [if_pos rfl, sort_keep_cursor_items] at hit
          exact ((sortItems_perm _ _).mem_iff).mp hit
      exact upd_consistent item (updateFirstItem_updated record options app.now app.sort_mode
        app.items items2 changed hupd item hmem)
    · rw [ensure_selection_valid_items, sort_keep_cursor_items] at hit
      have hmem := ((sortItems_perm _ _).mem_iff).mp hit
      rcases List.mem_append.mp hmem with hin | hnew
      · exact hinv item hin
      · simp only [List.mem_singleton] at hnew
        subst hnew
        constructor
        · intro _
          simp
        · simp only [mtimeMax, List.foldl_cons, List.foldl_nil]
          rw [optMax_none_left]

/-- Witness for `report_totals_consistent`: inserting one artifact into an
empty session yields a report satisfying the invariant. -/
theorem report_totals_consistent_witness :
    reportConsistent ⟨["r"], none, [⟨["r"], ["r", "t"], ⟨5, some 3⟩⟩], 5, some 3⟩ :=
  report_totals_consistent.2 ⟨0, SortMode.Age, [], none, [], none⟩ [] ⟨0, false⟩
    ⟨["r"], ["r", "t"], ⟨5, some 3⟩⟩ (fun item h => absurd h (by simp))
    ⟨⟨["r"], none, [⟨["r"], ["r", "t"], ⟨5, some 3⟩⟩], 5, some 3⟩, false, false,
      SelectionMode.Auto, "r"⟩ (by decide)

/-! ### Helper lemmas: selection model -/

lemma should_auto_select_iff_aux (report : RepoReport) (options : TuiOptions) (now : Nat) :
    should_auto_select report options now = true ↔
      (is_visible report options = true ∧
        ∃ t, report.newest_mtime = some t ∧ t ≤ now ∧ 180 * 86400 ≤ now - t) := by
  unfold should_auto_select repo_age_days is_visible
  rcases hmt : report.newest_mtime with _ | t
  · simp
  · cases hemp : report.artifacts.isEmpty <;>
      by_cases hsz : report.total_size_bytes < options.min_size_bytes <;>
      by_cases hle : t ≤ now <;>
        (simp [hemp, hsz, hle, Nat.le_div_iff_mul_le (show 0 < 86400 by norm_num)]
         <;> omega)

lemma should_auto_select_head (r : RepoReport) (h : Option GitHead)
    (options : TuiOptions) (now : Nat) :
    should_auto_select { r with head := h } options now
      = should_auto_select r options now := rfl

/-- Counterexample to claim C5 as stated: a visible repository with no
`newest_mtime` at all is NOT auto-selected (`repo_age_days` is `None`, so
`should_auto_select` returns false), contradicting "no timestamp is
treated as infinitely old and therefore eligible". -/
theorem missing_mtime_not_auto_selected_counterexample :
    is_visible ⟨["r"], none, [⟨["r"], ["r", "t"], ⟨10, none⟩⟩], 10, none⟩ ⟨1, false⟩ = true ∧
    (⟨["r"], none, [⟨["r"], ["r", "t"], ⟨10, none⟩⟩], 10, none⟩ : RepoReport).newest_mtime
        = none ∧
    should_auto_select ⟨["r"], none, [⟨["r"], ["r", "t"], ⟨10, none⟩⟩], 10, none⟩
        ⟨1, false⟩ 99999999999 = false := by
  refine ⟨by decide, rfl, by decide⟩

/-- Claim C5, amended: a repository is auto-selected iff it is visible and
its `newest_mtime` is present, not in the future, and at least 180 days
old; a repository with no timestamp (or a future one) is NOT auto-selected.
A newly-discovered repository under no session-wide override gets exactly
this verdict, in `Auto` mode. -/
theorem should_auto_select_characterization :
    (∀ (report : RepoReport) (options : TuiOptions) (now : Nat),
      should_auto_select report options now = true ↔
        (is_visible report options = true ∧
          ∃ t, report.newest_mtime = some t ∧ t ≤ now ∧ 180 * 86400 ≤ now - t)) ∧
    (∀ (app : App) (scan_root : FsPath) (options : TuiOptions) (record : ArtifactRecord),
      app.new_repo_default_selected = none →
      (∀ item ∈ app.items, item.report.repo_root ≠ record.repo_root) →
      ∃ item ∈ (app.upsert_artifact scan_root options record).items,
        item.report.repo_root = record.repo_root ∧
        item.selection_mode = SelectionMode.Auto ∧
        item.selected = should_auto_select
          ⟨record.repo_root, none, [record], record.stats.size_bytes,
            record.stats.newest_mtime⟩ options app.now) := by
  refine ⟨should_auto_select_iff_aux, ?_⟩
  intro app scan_root options record hdefault hnone
  have hmiss := updateFirstItem_missing record options app.now app.sort_mode app.items hnone
  unfold App.upsert_artifact
  rw [hmiss, hdefault]
  simp only [ensure_selection_valid_items, sort_keep_cursor_items]
  refine ⟨⟨⟨record.repo_root, (removeHead record.repo_root app.pending_heads).1.getD none,
      [record], record.stats.size_bytes, record.stats.newest_mtime⟩,
      (match (removeHead record.repo_root app.pending_heads).1 with
        | some _ => true | none => false),
      should_auto_select
        ⟨record.repo_root, (removeHead record.repo_root app.pending_heads).1.getD none,
          [record], record.stats.size_bytes, record.stats.newest_mtime⟩ options app.now,
      SelectionMode.Auto, display_rel_path scan_root record.repo_root⟩, ?_, rfl, rfl, ?_⟩
  · apply ((sortItems_perm _ _).mem_iff).mpr
    apply List.mem_append_right
    rcases hfound : (removeHead record.repo_root app.pending_heads).1 with _ | hd <;>
      simp [hfound]
  · exact should_auto_select_head
      ⟨record.repo_root, none, [record], record.stats.size_bytes,
        record.stats.newest_mtime⟩
      ((removeHead record.repo_root app.pending_heads).1.getD none) options app.now

/-- Witness for `should_auto_select_characterization`: a visible repository
whose newest mtime is 200 days old is auto-selected. -/
theorem should_auto_select_characterization_witness :
    should_auto_select ⟨["r"], none, [⟨["r"], ["r", "t"], ⟨10, some 0⟩⟩], 10, some 0⟩
        ⟨1, false⟩ (200 * 86400) = true :=
  (should_auto_select_characterization.1
      ⟨["r"], none, [⟨["r"], ["r", "t"], ⟨10, some 0⟩⟩], 10, some 0⟩
      ⟨1, false⟩ (200 * 86400)).mpr
    ⟨by decide, 0, rfl, by decide, by decide⟩

lemma cmpItemAge_ne_gt_iff (a b : RepoItem) :
    (cmpItemAge a b ≠ .gt) ↔ specAgeLE a b := by
  unfold cmpItemAge specAgeLE cmp_time_key
  rcases hma : a.report.newest_mtime with _ | x <;>
    rcases hmb : b.report.newest_mtime with _ | y
  · simpa [Ordering.then] using cmpPath_ne_gt_iff a.report.repo_root b.report.repo_root
  · simp [Ordering.then]
  · simp [Ordering.then]
  · rw [then_ne_gt_iff, cmpNat_eq_lt_iff, cmpNat_eq_eq_iff, cmpPath_ne_gt_iff]

lemma specAgeLE_total (a b : RepoItem) : specAgeLE a b ∨ specAgeLE b a := by
  unfold specAgeLE
  rcases a.report.newest_mtime with _ | x <;> rcases b.report.newest_mtime with _ | y <;> simp
  · exact le_total _ _
  · rcases Nat.lt_trichotomy x y with h | h | h
    · exact Or.inl (Or.inl h)
    · subst h
      rcases le_total (pathKey a.report.repo_root) (pathKey b.report.repo_root) with h2 | h2
      · exact Or.inl (Or.inr ⟨rfl, h2⟩)
      · exact Or.inr (Or.inr ⟨rfl, h2⟩)
    · exact Or.inr (Or.inl h)

lemma specAgeLE_trans (a b c : RepoItem)
    (hab : specAgeLE a b) (hbc : specAgeLE b c) : specAgeLE a c := by
  unfold specAgeLE at hab hbc ⊢
  rcases hma : a.report.newest_mtime with _ | x <;>
    rcases hmb : b.report.newest_mtime with _ | y <;>
    rcases hmc : c.report.newest_mtime with _ | z <;> simp_all
  · exact le_trans hab hbc
  · rcases hab with h1 | ⟨h1, h1p⟩ <;> rcases hbc with h2 | ⟨h2, h2p⟩
    · exact Or.inl (lt_trans h1 h2)
    · exact Or.inl (h2 ▸ h1)
    · exact Or.inl (h1 ▸ h2)
    · exact Or.inr ⟨h1.trans h2, le_trans h1p h2p⟩

/-- Counterexample to claim C4 as stated: under the by-age sort an item
with an absent timestamp sorts AFTER one with a present timestamp
(`cmp_time_key` makes `None` compare greater), not before it. -/
theorem by_age_missing_mtime_counterexample :
    cmp_time_key none (some 0) = Ordering.gt ∧
    sortItems SortMode.Age
        [⟨⟨["a"], none, [], 0, none⟩, false, false, SelectionMode.Auto, "a"⟩,
         ⟨⟨["b"], none, [], 0, some 5⟩, false, false, SelectionMode.Auto, "b"⟩]
      = [⟨⟨["b"], none, [], 0, some 5⟩, false, false, SelectionMode.Auto, "b"⟩,
         ⟨⟨["a"], none, [], 0, none⟩, false, false, SelectionMode.Auto, "a"⟩] ∧
    sortItems SortMode.Age
        [⟨⟨["a"], none, [], 0, none⟩, false, false, SelectionMode.Auto, "a"⟩,
         ⟨⟨["b"], none, [], 0, some 5⟩, false, false, SelectionMode.Auto, "b"⟩]
      ≠ [⟨⟨["a"], none, [], 0, none⟩, false, false, SelectionMode.Auto, "a"⟩,
         ⟨⟨["b"], none, [], 0, some 5⟩, false, false, SelectionMode.Auto, "b"⟩] := by
  refine ⟨rfl, by decide, by decide⟩

/-- Claim C4, amended: the by-age sort orders items ascending by present
timestamps, places items with an absent timestamp after every item with a
present one (absent compares newest/last, not oldest/first), and breaks
final ties by repository root path; the sorted list is a permutation of
the input. -/
theorem by_age_sort_characterization (items : List RepoItem) :
    (sortItems SortMode.Age items).Perm items ∧
    List.Sorted specAgeLE (sortItems SortMode.Age items) := by
  refine ⟨sortItems_perm _ _, ?_⟩
  have htot : IsTotal RepoItem (fun a b => cmpItemAge a b ≠ .gt) := ⟨fun a b => by
    rcases specAgeLE_total a b with h | h
    · exact Or.inl ((cmpItemAge_ne_gt_iff a b).mpr h)
    · exact Or.inr ((cmpItemAge_ne_gt_iff b a).mpr h)⟩
  have htr : IsTrans RepoItem (fun a b => cmpItemAge a b ≠ .gt) := ⟨fun a b c hab hbc =>
    (cmpItemAge_ne_gt_iff a c).mpr (specAgeLE_trans a b c
      ((cmpItemAge_ne_gt_iff a b).mp hab) ((cmpItemAge_ne_gt_iff b c).mp hbc))⟩
  have hs := @List.sorted_insertionSort RepoItem (fun a b => cmpItemAge a b ≠ .gt)
    (fun a b => inferInstance) htot htr items
  exact hs.imp (fun {x y} h => (cmpItemAge_ne_gt_iff x y).mp h)

/-! ### Helper lemmas: deletion planning -/

lemma flattenTargets_perm {l1 l2 : List (RepoReport × Bool)} (h : l1.Perm l2) :
    (flattenTargets l1).Perm (flattenTargets l2) := by
  unfold flattenTargets
  induction h with
  | nil => exact List.Perm.refl _
  | cons x _ ih =>
    rw [List.flatMap_cons, List.flatMap_cons]
    exact (List.Perm.refl _).append ih
  | swap x y l =>
    rw [List.flatMap_cons, List.flatMap_cons, List.flatMap_cons, List.flatMap_cons,
      ← List.append_assoc, ← List.append_assoc]
    exact (List.perm_append_comm).append (List.Perm.refl _)
  | trans _ _ ih1 ih2 => exact ih1.trans ih2

lemma insertionSortPlan_pairwise (lst : List DeleteTarget) :
    List.Pairwise (fun a b : DeleteTarget => pathKey a.path ≤ pathKey b.path)
      (lst.insertionSort (fun a b => cmpPath a.path b.path ≠ .gt)) := by
  have htot : IsTotal DeleteTarget (fun a b => cmpPath a.path b.path ≠ .gt) := ⟨fun a b => by
    rcases le_total (pathKey a.path) (pathKey b.path) with h | h
    · exact Or.inl ((cmpPath_ne_gt_iff _ _).mpr h)
    · exact Or.inr ((cmpPath_ne_gt_iff _ _).mpr h)⟩
  have htr : IsTrans DeleteTarget (fun a b => cmpPath a.path b.path ≠ .gt) := ⟨fun a b c hab hbc =>
    (cmpPath_ne_gt_iff _ _).mpr
      (le_trans ((cmpPath_ne_gt_iff _ _).mp hab) ((cmpPath_ne_gt_iff _ _).mp hbc))⟩
  have hs := @List.sorted_insertionSort DeleteTarget
    (fun a b => cmpPath a.path b.path ≠ .gt) (fun a b => inferInstance) htot htr lst
  refine hs.imp ?_
  intro x y h
  exact (cmpPath_ne_gt_iff x.path y.path).mp h

lemma eq_of_perm_sorted_inj :
    ∀ (l1 l2 : List DeleteTarget), l1.Perm l2 →
      List.Pairwise (fun a b : DeleteTarget => pathKey a.path ≤ pathKey b.path) l1 →
      List.Pairwise (fun a b : DeleteTarget => pathKey a.path ≤ pathKey b.path) l2 →
      (∀ t ∈ l1, ∀ u ∈ l1, t.path = u.path → t = u) →
      l1 = l2 := by
  intro l1
  induction l1 with
  | nil =>
    intro l2 hperm _ _ _
    exact (hperm.symm.eq_nil).symm
  | cons a t1 ih =>
    intro l2 hperm hs1 hs2 hinj
    cases l2 with
    | nil => exact absurd hperm.eq_nil (by simp)
    | cons b t2 =>
      have hba : b ∈ a :: t1 := hperm.symm.subset (List.mem_cons_self b t2)
      have hab : a ∈ b :: t2 := hperm.subset (List.mem_cons_self a t1)
      have hle1 : pathKey a.path ≤ pathKey b.path := by
        rcases List.mem_cons.mp hba with h | h
        · rw [h]
        · exact (List.pairwise_cons.mp hs1).1 b h
      have hle2 : pathKey b.path ≤ pathKey a.path := by
        rcases List.mem_cons.mp hab with h | h
        · rw [h]
        · exact (List.pairwise_cons.mp hs2).1 a h
      have hpatheq : a.path = b.path := pathKey_injective (le_antisymm hle1 hle2)
      have hae : a = b := hinj a (List.mem_cons_self a t1) b hba hpatheq
      subst hae
      have htail : t1 = t2 := ih t2 hperm.cons_inv (List.pairwise_cons.mp hs1).2
        (List.pairwise_cons.mp hs2).2
        (fun t ht u hu hp =>
          hinj t (List.mem_cons_of_mem _ ht) u (List.mem_cons_of_mem _ hu) hp)
      rw [htail]

lemma dedupAux_chain :
    ∀ (lst : List DeleteTarget) (prev : DeleteTarget),
      List.Pairwise (fun a b : DeleteTarget => pathKey a.path ≤ pathKey b.path) (prev :: lst) →
      List.Chain' (fun a b : DeleteTarget => pathKey a.path < pathKey b.path)
        (prev :: dedupAux prev lst) := by
  intro lst
  induction lst with
  | nil =>
    intro prev _
    simp [dedupAux]
  | cons b l ih =>
    intro prev hp
    rw [dedupAux]
    by_cases hb : b.path = prev.path
    · rw [if_pos hb]
      apply ih prev
      have hp2 := List.pairwise_cons.mp hp
      exact List.pairwise_cons.mpr
        ⟨fun x hx => hp2.1 x (List.mem_cons_of_mem _ hx),
         (List.pairwise_cons.mp hp2.2).2⟩
    · rw [if_neg hb]
      rw [List.chain'_cons]
      constructor
      · have hle := (List.pairwise_cons.mp hp).1 b (List.mem_cons_self _ _)
        refine lt_of_le_of_ne hle (fun hc => hb ?_)
        exact (pathKey_injective hc).symm
      · exact ih b (List.pairwise_cons.mp hp).2

lemma dedupAux_paths :
    ∀ (lst : List DeleteTarget) (prev : DeleteTarget) (q : FsPath),
      ((q = prev.path ∨ ∃ t ∈ dedupAux prev lst, t.path = q) ↔
        (q = prev.path ∨ ∃ t ∈ lst, t.path = q)) := by
  intro lst
  induction lst with
  | nil =>
    intro prev q
    simp [dedupAux]
  | cons b l ih =>
    intro prev q
    rw [dedupAux]
    by_cases hb : b.path = prev.path
    · rw [if_pos hb, ih prev q]
      constructor
      · rintro (h | ⟨t, ht, hq⟩)
        · exact Or.inl h
        · exact Or.inr ⟨t, List.mem_cons_of_mem _ ht, hq⟩
      · rintro (h | ⟨t, ht, hq⟩)
        · exact Or.inl h
        · rcases List.mem_cons.mp ht with heq | ht2
          · subst heq
            exact Or.inl (by rw [← hq, hb])
          · exact Or.inr ⟨t, ht2, hq⟩
    · rw [if_neg hb]
      constructor
      · rintro (h | ⟨t, ht, hq⟩)
        · exact Or.inl h
        · rcases List.mem_cons.mp ht with heq | ht2
          · subst heq
            exact Or.inr ⟨t, List.mem_cons_self _ _, hq⟩
          · rcases (ih b q).mp (Or.inr ⟨t, ht2, hq⟩) with h2 | ⟨u, hu, hque⟩
            · exact Or.inr ⟨b, List.mem_cons_self _ _, h2.symm⟩
            · exact Or.inr ⟨u, List.mem_cons_of_mem _ hu, hque⟩
      · rintro (h | ⟨t, ht, hq⟩)
        · exact Or.inl h
        · rcases List.mem_cons.mp ht with heq | ht2
          · subst heq
            exact Or.inr ⟨t, List.mem_cons_self _ _, hq⟩
          · rcases (ih b q).mpr (Or.inr ⟨t, ht2, hq⟩) with h2 | ⟨u, hu, hque⟩
            · exact Or.inr ⟨b, List.mem_cons_self _ _, h2.symm⟩
            · exact Or.inr ⟨u, List.mem_cons_of_mem _ hu, hque⟩

lemma dedupByPath_paths (s : List DeleteTarget) (q : FsPath) :
    (∃ t ∈ dedupByPath s, t.path = q) ↔ (∃ t ∈ s, t.path = q) := by
  cases s with
  | nil => simp [dedupByPath]
  | cons a rest =>
    rw [dedupByPath]
    constructor
    · rintro ⟨t, ht, hq⟩
      rcases List.mem_cons.mp ht with heq | ht2
      · subst heq
        exact ⟨t, List.mem_cons_self _ _, hq⟩
      · rcases (dedupAux_paths rest a q).mp (Or.inr ⟨t, ht2, hq⟩) with h | ⟨u, hu, hq2⟩
        · exact ⟨a, List.mem_cons_self _ _, h.symm⟩
        · exact ⟨u, List.mem_cons_of_mem _ hu, hq2⟩
    · rintro ⟨t, ht, hq⟩
      rcases List.mem_cons.mp ht with heq | ht2
      · subst heq
        exact ⟨t, List.mem_cons_self _ _, hq⟩
      · rcases (dedupAux_paths rest a q).mpr (Or.inr ⟨t, ht2, hq⟩) with h | ⟨u, hu, hq2⟩
        · exact ⟨a, List.mem_cons_self _ _, h.symm⟩
        · exact ⟨u, List.mem_cons_of_mem _ hu, hq2⟩

lemma mem_flattenTargets (l : List (RepoReport × Bool)) (t : DeleteTarget) :
    t ∈ flattenTargets l ↔
      ∃ p ∈ l, p.2 = true ∧ ∃ a ∈ p.1.artifacts,
        t = ⟨p.1.repo_root, a.path, a.stats.size_bytes⟩ := by
  unfold flattenTargets
  rw [List.mem_flatMap]
  constructor
  · rintro ⟨p, hp, ht⟩
    by_cases hsel : p.2
    · rw [if_pos hsel] at ht
      obtain ⟨a, ha, hta⟩ := List.mem_map.mp ht
      exact ⟨p, hp, hsel, a, ha, hta.symm⟩
    · rw [if_neg hsel] at ht
      exact absurd ht (List.not_mem_nil t)
  · rintro ⟨p, hp, hsel, a, ha, hta⟩
    refine ⟨p, hp, ?_⟩
    rw [if_pos hsel]
    exact List.mem_map.mpr ⟨a, ha, hta.symm⟩

/-- Counterexample to claim C6 as stated: two selected reports sharing an
artifact path (with different repository roots and planned sizes) witness
order dependence — the stable sort plus `dedup_by` keeps whichever
came first, so permuting the input changes the resulting target list. -/
theorem plan_delete_targets_order_dependent_counterexample :
    ([((⟨["ra"], none, [⟨["ra"], ["p"], ⟨1, none⟩⟩], 1, none⟩ : RepoReport), true),
      ((⟨["rb"], none, [⟨["rb"], ["p"], ⟨2, none⟩⟩], 2, none⟩ : RepoReport), true)].Perm
     [((⟨["rb"], none, [⟨["rb"], ["p"], ⟨2, none⟩⟩], 2, none⟩ : RepoReport), true),
      ((⟨["ra"], none, [⟨["ra"], ["p"], ⟨1, none⟩⟩], 1, none⟩ : RepoReport), true)]) ∧
    plan_delete_targets
        [((⟨["ra"], none, [⟨["ra"], ["p"], ⟨1, none⟩⟩], 1, none⟩ : RepoReport), true),
         ((⟨["rb"], none, [⟨["rb"], ["p"], ⟨2, none⟩⟩], 2, none⟩ : RepoReport), true)]
      ≠ plan_delete_targets
        [((⟨["rb"], none, [⟨["rb"], ["p"], ⟨2, none⟩⟩], 2, none⟩ : RepoReport), true),
         ((⟨["ra"], none, [⟨["ra"], ["p"], ⟨1, none⟩⟩], 1, none⟩ : RepoReport), true)] := by
  refine ⟨by decide, by decide⟩

/-- Claim C6, amended: `plan_delete_targets` is a pure function producing a
strictly path-sorted, path-deduplicated list containing exactly the
artifact paths of the selected reports; planning twice over the same input
yields the same list (determinism), and planning is order-independent
whenever no two selected artifacts share a path with different data (as
holds for scanner-built reports, where a path belongs to one repository);
with shared paths the first occurrence wins, so full permutation
invariance holds only under that proviso. -/
theorem plan_delete_targets_characterization :
    (∀ l : List (RepoReport × Bool),
      List.Chain' (fun a b : DeleteTarget => pathKey a.path < pathKey b.path)
        (plan_delete_targets l)) ∧
    (∀ (l : List (RepoReport × Bool)) (q : FsPath),
      (∃ t ∈ plan_delete_targets l, t.path = q) ↔
        (∃ p ∈ l, p.2 = true ∧ ∃ a ∈ p.1.artifacts, a.path = q)) ∧
    (∀ l1 l2 : List (RepoReport × Bool), l1.Perm l2 →
      pathInjective (flattenTargets l1) →
      plan_delete_targets l1 = plan_delete_targets l2) := by
  refine ⟨?_, ?_, ?_⟩
  · intro l
    unfold plan_delete_targets
    have hs := insertionSortPlan_pairwise (flattenTargets l)
    cases hcase : (flattenTargets l).insertionSort
        (fun a b => cmpPath a.path b.path ≠ .gt) with
    | nil => simp [dedupByPath]
    | cons a rest =>
      rw [dedupByPath]
      exact dedupAux_chain rest a (hcase ▸ hs)
  · intro l q
    unfold plan_delete_targets
    rw [dedupByPath_paths]
    constructor
    · rintro ⟨t, ht, hq⟩
      have htf : t ∈ flattenTargets l :=
        (List.perm_insertionSort _ _).subset ht
      obtain ⟨p, hp, hsel, a, ha, hta⟩ := (mem_flattenTargets l t).mp htf
      refine ⟨p, hp, hsel, a, ha, ?_⟩
      rw [← hq, hta]
    · rintro ⟨p, hp, hsel, a, ha, hq⟩
      refine ⟨⟨p.1.repo_root, a.path, a.stats.size_bytes⟩, ?_, hq⟩
      refine ((List.perm_insertionSort _ _).mem_iff).mpr ?_
      exact (mem_flattenTargets l _).mpr ⟨p, hp, hsel, a, ha, rfl⟩
  · intro l1 l2 hperm hinj
    have hf := flattenTargets_perm hperm
    have hsort : (flattenTargets l1).insertionSort (fun a b => cmpPath a.path b.path ≠ .gt)
        = (flattenTargets l2).insertionSort (fun a b => cmpPath a.path b.path ≠ .gt) := by
      apply eq_of_perm_sorted_inj
      · exact (List.perm_insertionSort _ _).trans
          (hf.trans (List.perm_insertionSort _ _).symm)
      · exact insertionSortPlan_pairwise _
      · exact insertionSortPlan_pairwise _
      · intro t ht u hu hp
        exact hinj t ((List.perm_insertionSort _ _).subset ht)
          u ((List.perm_insertionSort _ _).subset hu) hp
    unfold plan_delete_targets
    rw [hsort]

/-- Witness for `plan_delete_targets_characterization`: permuting two
selected reports with distinct artifact paths leaves the plan unchanged. -/
theorem plan_delete_targets_characterization_witness :
    plan_delete_targets
        [((⟨["ra"], none, [⟨["ra"], ["pa"], ⟨1, none⟩⟩], 1, none⟩ : RepoReport), true),
         ((⟨["rb"], none, [⟨["rb"], ["pb"], ⟨2, none⟩⟩], 2, none⟩ : RepoReport), true)]
      = plan_delete_targets
        [((⟨["rb"], none, [⟨["rb"], ["pb"], ⟨2, none⟩⟩], 2, none⟩ : RepoReport), true),
         ((⟨["ra"], none, [⟨["ra"], ["pa"], ⟨1, none⟩⟩], 1, none⟩ : RepoReport), true)] :=
  plan_delete_targets_characterization.2.2 _ _ (by decide)
    (by unfold pathInjective; decide)
